import Mathlib

/-!
# Verification of the YadroTestCase model-to-artifacts converter (`src/main.py`)

This file gives a shallow embedding of `main.py`, which converts a UML-like
class/aggregation model (parsed from XML) into a nested config tree and a JSON
metadata document, and proves properties of the claims about it.

Modelling conventions:
* `xml.etree` element access `elem.get(attr)` returns `Option String`
  (`none` = attribute absent).
* Python `OrderedDict`/`dict` values become association lists
  (`List (key × value)`) with `odGet`/`odSet` reproducing Python's
  lookup/assignment semantics (assignment to an existing key updates in
  place keeping its position; assignment to a fresh key appends).
* Python exceptions become `Except PyErr`; unbounded recursion in
  `build_element` is modelled with a fuel parameter whose exhaustion plays
  the role of Python's `RecursionError`.
* The in-place `list.sort` calls of `generate_config_xml` (the only mutation
  of an input structure in the program) are modelled by threading the
  containment index through the recursion and returning its final state.
* `json.dumps` / file writes / `main` are I/O glue and are not modelled;
  `generate_meta_json` is embedded as the list of entries that would be
  serialized, `generate_config_xml` as the element tree that would be
  rendered (tag name, attribute leaf elements, nested children).
-/

namespace Yadro

/-- The Python exception kinds the program can raise. -/
inductive PyErr where
  | parseError
  | typeError
  | valueError
  | keyError
  | recursionError
deriving DecidableEq, Repr

/-! ## Ordered dictionaries as association lists -/

/-- Python `d[k]` lookup (first matching key; keys are unique in practice). -/
def odGet [DecidableEq κ] (k : κ) : List (κ × β) → Option β
  | [] => none
  | (k', v) :: rest => if k' = k then some v else odGet k rest

/-- Python `d[k] = v`: update in place if the key exists (keeping its
position), otherwise append the new pair at the end. -/
def odSet [DecidableEq κ] (k : κ) (v : β) (d : List (κ × β)) : List (κ × β) :=
  if k ∈ d.map Prod.fst then
    d.map (fun p => if p.1 = k then (k, v) else p)
  else d ++ [(k, v)]

/-! ## Input documents (`xml.etree` view of the parsed file) -/

/-- An `<Attribute>` element: `attr.get('name')`, `attr.get('type')`. -/
structure AttrElem where
  name : Option String
  type : Option String
deriving DecidableEq, Repr

/-- A `<Class>` element with its nested `<Attribute>` elements. -/
structure ClassElem where
  name : Option String
  isRoot : Option String
  documentation : Option String
  attributes : List AttrElem
deriving DecidableEq, Repr

/-- An `<Aggregation>` element. -/
structure AggElem where
  source : Option String
  target : Option String
  sourceMultiplicity : Option String
  targetMultiplicity : Option String
deriving DecidableEq, Repr

/-- The input seen by `parse_xml_model`: either a document that
`ET.parse` rejects, or the lists of `Class` and `Aggregation` elements
found by `root.findall`. -/
inductive XmlInput where
  | malformed
  | doc (classElems : List ClassElem) (aggElems : List AggElem)

/-! ## Loaded model -/

/-- The per-class record built by `parse_xml_model` (an `OrderedDict` with
keys `name`, `isRoot`, `documentation`, `attributes`). -/
structure ClassDef where
  name : Option String
  isRoot : Bool
  documentation : String
  attributes : List (Option String × Option String)
deriving DecidableEq, Repr

/-- The `classes` mapping: class name (possibly `None`) to either `None`
(canonical slot never populated) or a `ClassDef`. -/
abbrev Classes := List (Option String × Option ClassDef)

/-- An aggregation record (an `OrderedDict` in the source). -/
structure Aggregation where
  source : Option String
  target : Option String
  source_min : String
  source_max : String
  target_min : Option String
  target_max : Option String
deriving DecidableEq, Repr

/-- The hard-coded canonical class enumeration. -/
def class_order : List String :=
  ["MetricJob", "CPLANE", "MGMT", "RU", "HWE", "COMM", "BTS"]

/-- The `classes` dictionary pre-populated with `None` for every canonical
class name. -/
def initClasses : Classes := class_order.map (fun n => (some n, none))

/-! ## Multiplicity splitting (`'..' in s` and `s.split('..')`) -/

/-- Python `'..' in s`: scan for two consecutive dots. -/
def containsSep : List Char → Bool
  | [] => false
  | [_] => false
  | c1 :: c2 :: rest => (c1 == '.' && c2 == '.') || containsSep (c2 :: rest)

/-- Python `s.split('..')`: split on non-overlapping occurrences of the
two-dot separator, scanning left to right. -/
def splitSep : List Char → List (List Char)
  | [] => [[]]
  | [c] => [[c]]
  | c1 :: c2 :: rest =>
    if c1 == '.' && c2 == '.' then
      [] :: splitSep rest
    else
      match splitSep (c2 :: rest) with
      | [] => [[c1]]
      | p :: ps => (c1 :: p) :: ps

/-! ## `parse_xml_model` -/

/-- The body of the `Class` loop: build the `OrderedDict` stored into
`classes[class_name]`. -/
def parse_class (e : ClassElem) : ClassDef :=
  { name := e.name
    isRoot := (e.isRoot.getD "false").toLower = "true"
    documentation := e.documentation.getD ""
    attributes := e.attributes.map (fun a => (a.name, a.type)) }

/-- The body of the `Aggregation` loop: `'..' in source_multiplicity`
raises `TypeError` when the attribute is absent (`None`); the two-variable
unpack of `split('..')` raises `ValueError` unless it yields exactly two
parts. -/
def parse_aggregation (e : AggElem) : Except PyErr Aggregation :=
  match e.sourceMultiplicity with
  | none => .error .typeError
  | some sm =>
    if containsSep sm.toList then
      match splitSep sm.toList with
      | [a, b] =>
        .ok ⟨e.source, e.target, String.mk a, String.mk b,
             e.targetMultiplicity, e.targetMultiplicity⟩
      | _ => .error .valueError
    else
      .ok ⟨e.source, e.target, sm, sm, e.targetMultiplicity, e.targetMultiplicity⟩

/-- Fold of the `Class` loop over the pre-populated `classes` dictionary. -/
def foldClasses (cs : List ClassElem) (m : Classes) : Classes :=
  cs.foldl (fun m e => odSet e.name (some (parse_class e)) m) m

/-- `parse_xml_model`: a malformed document makes `ET.parse` raise; then
the `Class` loop populates `classes` and the `Aggregation` loop builds the
aggregation list, aborting at the first failing element. -/
def parse_xml_model : XmlInput → Except PyErr (Classes × List Aggregation)
  | .malformed => .error .parseError
  | .doc cs as => do
    let classes := foldClasses cs initClasses
    let aggs ← as.mapM parse_aggregation
    return (classes, aggs)

/-! ## `generate_meta_json` -/

/-- `source_info`: source name → ordered dict of target name → (max, min),
built with `defaultdict(dict)` semantics. -/
abbrev SourceInfo := List (Option String × List (Option String × String × String))

/-- The `source_info` loop of `generate_meta_json`. -/
def buildSourceInfo (aggs : List Aggregation) : SourceInfo :=
  aggs.foldl
    (fun si agg =>
      odSet agg.source
        (odSet agg.target (agg.source_max, agg.source_min)
          ((odGet agg.source si).getD [])) si)
    []

/-- One entry of the metadata list (the JSON object for one class,
field order `class`, `documentation`, `isRoot`, optional `max`/`min`,
`parameters`). `maxMin = none` models the two keys being absent. -/
structure MetaEntry where
  className : Option String
  documentation : String
  isRoot : Bool
  maxMin : Option (String × String)
  parameters : List (Option String × Option String)
deriving DecidableEq, Repr

/-- Python's stable `list.sort(key=...)` for `Nat`-valued keys, as an
insertion sort that inserts each element before the first strictly-later
element with a key not smaller than its own (hence stable). -/
def pyInsert (key : α → Nat) (a : α) : List α → List α
  | [] => [a]
  | b :: t => if key a ≤ key b then a :: b :: t else b :: pyInsert key a t

/-- Stable sort by a `Nat`-valued key (observable behaviour of Python's
`list.sort(key=...)`). -/
def pySort (key : α → Nat) : List α → List α
  | [] => []
  | a :: t => pyInsert key a (pySort key t)

/-- Sort key of `generate_meta_json`'s MGMT reordering:
`0 if x['name'] == 'MetricJob' else 1`. -/
def jobParamKey (p : Option String × Option String) : Nat :=
  if p.1 = some "MetricJob" then 0 else 1

/-- The metadata entry built for one populated class `cn ↦ cls`. -/
def metaEntryFor (aggs : List Aggregation) (si : SourceInfo)
    (cn : Option String) (cls : ClassDef) : MetaEntry :=
  let maxMin := (odGet cn si).bind (fun inner => inner.head?.map Prod.snd)
  let contained := (aggs.filter (fun a => a.target = cn)).map
    (fun a => (a.source, some "class"))
  let contained :=
    if cn = some "MGMT" then pySort jobParamKey contained else contained
  { className := cn
    documentation := cls.documentation
    isRoot := cls.isRoot
    maxMin := maxMin
    parameters := cls.attributes ++ contained }

/-- `generate_meta_json` (up to `json.dumps`): iterate the `classes` keys in
order, skip unpopulated slots, and emit one `MetaEntry` per populated class. -/
def generate_meta_json (classes : Classes) (aggs : List Aggregation) : List MetaEntry :=
  let si := buildSourceInfo aggs
  classes.filterMap (fun p => p.2.map (fun cls => metaEntryFor aggs si p.1 cls))

/-! ## `build_class_hierarchy` and `generate_config_xml` -/

/-- One entry of a containment list: `{'class': source, 'max': ..., 'min': ...}`. -/
structure ContainmentEntry where
  cls : Option String
  max : String
  min : String
deriving DecidableEq, Repr

/-- `containment`: target class name → list of contained-class entries in
aggregation declaration order (`defaultdict(list)`). -/
abbrev Containment := List (Option String × List ContainmentEntry)

/-- `build_class_hierarchy`: fixed root `'BTS'` plus the inverted
aggregation index. -/
def build_class_hierarchy (aggs : List Aggregation) : Option String × Containment :=
  (some "BTS",
   aggs.foldl
     (fun c agg =>
       odSet agg.target
         (((odGet agg.target c).getD []) ++ [⟨agg.source, agg.source_max, agg.source_min⟩]) c)
     [])

/-- Sort key of the MGMT child reordering in `generate_config_xml`:
`0 if x['class'] == 'MetricJob' else 1`. -/
def jobChildKey (e : ContainmentEntry) : Nat :=
  if e.cls = some "MetricJob" then 0 else 1

/-- `['MGMT', 'HWE', 'COMM'].index(c)`, with `3` standing for the
`ValueError` case (guarded before use). -/
def btsIdx (c : Option String) : Nat :=
  if c = some "MGMT" then 0
  else if c = some "HWE" then 1
  else if c = some "COMM" then 2
  else 3

/-- The MGMT child sort. -/
def mgmtSortL (l : List ContainmentEntry) : List ContainmentEntry :=
  pySort jobChildKey l

/-- The BTS child sort. -/
def btsSortL (l : List ContainmentEntry) : List ContainmentEntry :=
  pySort (fun e => btsIdx e.cls) l

/-- One node of the config tree: tag name, one leaf element per class
attribute, nested children. -/
structure ConfigNode where
  name : Option String
  attrs : List (Option String × Option String)
  children : List ConfigNode
deriving Repr

/-- The in-place child reordering of `build_element` for the class
`cn` whose containment list is `contained`: MGMT and BTS sort their list in
place (modelled by `odSet`-ting the sorted list back); BTS first computes
`.index` keys for all children and raises `ValueError` if one is not in the
fixed priority list; all other classes leave the list untouched. -/
def sortStep (cn : Option String) (contained : List ContainmentEntry)
    (c : Containment) : Except PyErr (List ContainmentEntry × Containment) :=
  if cn = some "MGMT" then
    .ok (mgmtSortL contained, odSet cn (mgmtSortL contained) c)
  else if cn = some "BTS" then
    if contained.all (fun e => decide (btsIdx e.cls < 3)) then
      .ok (btsSortL contained, odSet cn (btsSortL contained) c)
    else .error .valueError
  else .ok (contained, c)

/-- `build_element` lifted to a list of sibling class names, threading the
(mutable) containment index. `classes[class_name]` raises `KeyError` when
the key is absent and the subsequent `cls['attributes']` raises `TypeError`
when the stored value is `None`; `class_name in containment` failing makes
the node a leaf. Fuel exhaustion models Python's `RecursionError`. -/
def buildForest (classes : Classes) :
    Nat → List (Option String) → Containment →
    Except PyErr (List ConfigNode × Containment)
  | _, [], c => .ok ([], c)
  | 0, _ :: _, _ => .error .recursionError
  | fuel + 1, cn :: rest, c =>
    match odGet cn classes with
    | none => .error .keyError
    | some none => .error .typeError
    | some (some cls) =>
      match odGet cn c with
      | none =>
        match buildForest classes fuel rest c with
        | .error e => .error e
        | .ok (siblings, c₁) => .ok (⟨cn, cls.attributes, []⟩ :: siblings, c₁)
      | some contained =>
        match sortStep cn contained c with
        | .error e => .error e
        | .ok (sorted, c₁) =>
          match buildForest classes fuel (sorted.map (·.cls)) c₁ with
          | .error e => .error e
          | .ok (children, c₂) =>
            match buildForest classes fuel rest c₂ with
            | .error e => .error e
            | .ok (siblings, c₃) =>
              .ok (⟨cn, cls.attributes, children⟩ :: siblings, c₃)

/-- `generate_config_xml`: build the element tree from the fixed root,
returning the tree together with the final state of the containment index
(which the in-place sorts may have reordered). -/
def generate_config_xml (classes : Classes) (root_class : Option String)
    (c : Containment) (fuel : Nat) : Except PyErr (List ConfigNode × Containment) :=
  buildForest classes fuel [root_class] c

mutual
/-- All nodes of a config tree (the node itself and its descendants). -/
def nodesOf : ConfigNode → List ConfigNode
  | ⟨nm, ats, children⟩ => ⟨nm, ats, children⟩ :: nodesOfList children

/-- All nodes of a forest. -/
def nodesOfList : List ConfigNode → List ConfigNode
  | [] => []
  | n :: rest => nodesOf n ++ nodesOfList rest
end

/-- The first aggregation (in declaration order) whose source is `cn`. -/
def firstAggFor (cn : Option String) (aggs : List Aggregation) : Option Aggregation :=
  aggs.find? (fun a => a.source == cn)

/-- The last aggregation (in declaration order) with the given source and
target. -/
def lastAggFor (cn t : Option String) (aggs : List Aggregation) : Option Aggregation :=
  (aggs.filter (fun a => a.source == cn && a.target == t)).getLast?

/-- Relation between the containment index as built (`c₀`) and its state `c`
during/after the tree construction: only the `MGMT` and `BTS` entries may
have been replaced by their sorted versions (and the `BTS` sort can only
have happened if every child was in the fixed priority list). -/
def Inv (c₀ c : Containment) : Prop :=
  (∀ k, k ≠ some "MGMT" → k ≠ some "BTS" → odGet k c = odGet k c₀) ∧
  (odGet (some "MGMT") c = odGet (some "MGMT") c₀ ∨
    ∃ l, odGet (some "MGMT") c₀ = some l ∧
      odGet (some "MGMT") c = some (mgmtSortL l)) ∧
  (odGet (some "BTS") c = odGet (some "BTS") c₀ ∨
    ∃ l, odGet (some "BTS") c₀ = some l ∧ odGet (some "BTS") c = some (btsSortL l) ∧
      ∀ e ∈ l, btsIdx e.cls < 3)

/-- What the children of a node of the produced config tree look like in
terms of the originally-built containment index `c₀`. -/
def childSpec (c₀ : Containment) (n : ConfigNode) : Prop :=
  (odGet n.name c₀ = none → n.children = []) ∧
  (∀ l, odGet n.name c₀ = some l →
    (n.name = some "MGMT" → n.children.map (·.name) = (mgmtSortL l).map (·.cls)) ∧
    (n.name = some "BTS" → n.children.map (·.name) = (btsSortL l).map (·.cls) ∧
      ∀ e ∈ l, btsIdx e.cls < 3) ∧
    (n.name ≠ some "MGMT" → n.name ≠ some "BTS" →
      n.children.map (·.name) = l.map (·.cls)))

/-! ## Lemmas about `odGet` / `odSet` -/

section OdLemmas
variable {κ β : Type} [DecidableEq κ]

@[simp] theorem odGet_nil (k : κ) : odGet k ([] : List (κ × β)) = none := rfl

theorem odGet_cons (k k' : κ) (v : β) (d : List (κ × β)) :
    odGet k ((k', v) :: d) = if k' = k then some v else odGet k d := rfl

theorem odGet_append (k : κ) (d₁ d₂ : List (κ × β)) :
    odGet k (d₁ ++ d₂) =
      match odGet k d₁ with
      | some v => some v
      | none => odGet k d₂ := by
  induction d₁ with
  | nil => simp
  | cons p rest ih =>
    obtain ⟨k', v⟩ := p
    by_cases h : k' = k <;> simp [odGet_cons, h, ih]

theorem odGet_eq_none_iff (k : κ) (d : List (κ × β)) :
    odGet k d = none ↔ k ∉ d.map Prod.fst := by
  induction d with
  | nil => simp
  | cons p rest ih =>
    obtain ⟨k', v⟩ := p
    by_cases h : k' = k
    · subst h
      simp [odGet_cons]
    · rw [odGet_cons, if_neg h, ih]
      constructor
      · intro hn
        simp only [List.map_cons, List.mem_cons]
        rintro (hh | hh)
        · exact h hh.symm
        · exact hn hh
      · intro hn hmem
        exact hn (by simp [hmem])

theorem odGet_mem {k : κ} {d : List (κ × β)} {v : β}
    (h : odGet k d = some v) : (k, v) ∈ d := by
  induction d with
  | nil => simp at h
  | cons p rest ih =>
    obtain ⟨k', v'⟩ := p
    by_cases hk : k' = k
    · subst hk
      rw [odGet_cons, if_pos rfl] at h
      cases h
      exact List.mem_cons_self _ _
    · rw [odGet_cons, if_neg hk] at h
      exact List.mem_cons_of_mem _ (ih h)

theorem odGet_map_update_self (k : κ) (v : β) (d : List (κ × β))
    (h : k ∈ d.map Prod.fst) :
    odGet k (d.map fun p => if p.1 = k then (k, v) else p) = some v := by
  induction d with
  | nil => simp at h
  | cons p rest ih =>
    obtain ⟨k', v'⟩ := p
    by_cases hk : k' = k
    · subst hk
      simp [odGet_cons]
    · simp only [List.map_cons, List.mem_cons] at h
      rcases h with h | h
      · exact absurd h.symm hk
      · simp [odGet_cons, hk, ih h]

theorem odGet_map_update_ne (k k' : κ) (v : β) (d : List (κ × β)) (h : k' ≠ k) :
    odGet k' (d.map fun p => if p.1 = k then (k, v) else p) = odGet k' d := by
  induction d with
  | nil => simp
  | cons p rest ih =>
    obtain ⟨k₀, v₀⟩ := p
    by_cases hk : k₀ = k
    · subst hk
      have hne' : ¬k₀ = k' := fun hh => h hh.symm
      simp [odGet_cons, hne', ih]
    · simp [odGet_cons, hk, ih]

theorem odGet_odSet_self (k : κ) (v : β) (d : List (κ × β)) :
    odGet k (odSet k v d) = some v := by
  unfold odSet
  split
  · exact odGet_map_update_self k v d (by assumption)
  · rw [odGet_append]
    rw [(odGet_eq_none_iff k d).2 (by assumption)]
    simp [odGet]

theorem odGet_odSet_ne (k k' : κ) (v : β) (d : List (κ × β)) (h : k' ≠ k) :
    odGet k' (odSet k v d) = odGet k' d := by
  unfold odSet
  split
  · exact odGet_map_update_ne k k' v d h
  · rw [odGet_append]
    have hne : ¬k = k' := fun hh => h hh.symm
    cases hd : odGet k' d <;> simp [odGet_cons, hd, hne]

theorem odSet_map_fst (k : κ) (v : β) (d : List (κ × β)) :
    (odSet k v d).map Prod.fst =
      if k ∈ d.map Prod.fst then d.map Prod.fst else d.map Prod.fst ++ [k] := by
  unfold odSet
  split <;> simp_all
  intro a b _
  by_cases h : a = k <;> simp [h]

theorem odSet_keys_nodup (k : κ) (v : β) (d : List (κ × β))
    (h : (d.map Prod.fst).Nodup) : ((odSet k v d).map Prod.fst).Nodup := by
  rw [odSet_map_fst]
  split
  · exact h
  · simp [List.nodup_append, h, *]

theorem odGet_head_odSet {k : κ} {v : β} {d : List (κ × β)} {p₀ : κ × β}
    (h : d.head? = some p₀) :
    (odSet k v d).head? = some (if p₀.1 = k then (k, v) else p₀) := by
  unfold odSet
  cases d with
  | nil => simp at h
  | cons q rest =>
    simp only [List.head?_cons, Option.some.injEq] at h
    subst h
    by_cases hmem : k ∈ ((q :: rest).map Prod.fst)
    · rw [if_pos hmem]
      simp
    · rw [if_neg hmem]
      have hq : q.1 ≠ k := by
        intro hh
        exact hmem (by simp [← hh])
      simp [hq]

end OdLemmas

/-! ## Lemmas about `pySort` -/

section PySortLemmas
variable {α : Type} (key : α → Nat)

theorem pyInsert_perm (a : α) (l : List α) : List.Perm (pyInsert key a l) (a :: l) := by
  induction l with
  | nil => rfl
  | cons b t ih =>
    simp only [pyInsert]
    split
    · rfl
    · exact (ih.cons b).trans (List.Perm.swap a b t)

theorem pySort_perm (l : List α) : List.Perm (pySort key l) l := by
  induction l with
  | nil => rfl
  | cons a t ih => exact (pyInsert_perm key a (pySort key t)).trans (ih.cons a)

theorem pyInsert_skip (a : α) {l₁ : List α} (l₂ : List α)
    (h : ∀ b ∈ l₁, key b < key a) :
    pyInsert key a (l₁ ++ l₂) = l₁ ++ pyInsert key a l₂ := by
  induction l₁ with
  | nil => rfl
  | cons b t ih =>
    have hb : key b < key a := h b (List.mem_cons_self _ _)
    simp only [List.cons_append]
    simp only [pyInsert]
    rw [if_neg (by omega)]
    rw [ih (fun x hx => h x (List.mem_cons_of_mem _ hx))]

theorem pyInsert_front (a : α) {l : List α} (h : ∀ b ∈ l, key a ≤ key b) :
    pyInsert key a l = a :: l := by
  cases l with
  | nil => rfl
  | cons b t =>
    simp only [pyInsert]
    rw [if_pos (h b (List.mem_cons_self _ _))]

/-- Stable sort with a two-valued key is a stable partition. -/
theorem pySort_eq_two (l : List α) (h : ∀ x ∈ l, key x ≤ 1) :
    pySort key l =
      l.filter (fun x => key x == 0) ++ l.filter (fun x => key x == 1) := by
  induction l with
  | nil => rfl
  | cons a t ih =>
    have ht : ∀ x ∈ t, key x ≤ 1 := fun x hx => h x (List.mem_cons_of_mem _ hx)
    have ha : key a ≤ 1 := h a (List.mem_cons_self _ _)
    have hmem0 : ∀ b ∈ t.filter (fun x => key x == 0), key b = 0 := by
      intro b hb
      have := (List.mem_filter.1 hb).2
      simpa using this
    have hmem1 : ∀ b ∈ t.filter (fun x => key x == 1), key b = 1 := by
      intro b hb
      have := (List.mem_filter.1 hb).2
      simpa using this
    show pyInsert key a (pySort key t) = _
    rw [ih ht]
    rcases Nat.le_one_iff_eq_zero_or_eq_one.1 ha with h0 | h1
    · rw [pyInsert_front key a (by
        intro b _
        omega)]
      simp [List.filter_cons, h0]
    · rw [pyInsert_skip key a _ (by
        intro b hb
        rw [hmem0 b hb]
        omega)]
      rw [pyInsert_front key a (by
        intro b hb
        rw [hmem1 b hb, h1])]
      simp [List.filter_cons, h1]

/-- Stable sort with a three-valued key concatenates the three buckets. -/
theorem pySort_eq_three (l : List α) (h : ∀ x ∈ l, key x ≤ 2) :
    pySort key l =
      l.filter (fun x => key x == 0) ++ l.filter (fun x => key x == 1) ++
        l.filter (fun x => key x == 2) := by
  induction l with
  | nil => rfl
  | cons a t ih =>
    have ht : ∀ x ∈ t, key x ≤ 2 := fun x hx => h x (List.mem_cons_of_mem _ hx)
    have ha : key a ≤ 2 := h a (List.mem_cons_self _ _)
    have hmem0 : ∀ b ∈ t.filter (fun x => key x == 0), key b = 0 := by
      intro b hb
      have := (List.mem_filter.1 hb).2
      simpa using this
    have hmem1 : ∀ b ∈ t.filter (fun x => key x == 1), key b = 1 := by
      intro b hb
      have := (List.mem_filter.1 hb).2
      simpa using this
    have hmem2 : ∀ b ∈ t.filter (fun x => key x == 2), key b = 2 := by
      intro b hb
      have := (List.mem_filter.1 hb).2
      simpa using this
    show pyInsert key a (pySort key t) = _
    rw [ih ht]
    have hka : key a = 0 ∨ key a = 1 ∨ key a = 2 := by omega
    rcases hka with h0 | h1 | h2
    · rw [pyInsert_front key a (by
        intro b _
        omega)]
      simp [List.filter_cons, h0]
    · rw [List.append_assoc, pyInsert_skip key a _ (by
        intro b hb
        rw [hmem0 b hb]
        omega)]
      rw [pyInsert_front key a (by
        intro b hb
        rcases List.mem_append.1 hb with hb | hb
        · rw [hmem1 b hb, h1]
        · rw [hmem2 b hb, h1]
          omega)]
      simp [List.filter_cons, h1, List.append_assoc]
    · rw [pyInsert_skip key a _ (by
        intro b hb
        rcases List.mem_append.1 hb with hb | hb
        · rw [hmem0 b hb]
          omega
        · rw [hmem1 b hb]
          omega)]
      rw [pyInsert_front key a (by
        intro b hb
        rw [hmem2 b hb, h2])]
      simp [List.filter_cons, h2]

end PySortLemmas

/-! ## Lemmas about the multiplicity separator -/

theorem splitSep_ne_nil (l : List Char) : splitSep l ≠ [] := by
  induction l using splitSep.induct with
  | case1 => simp [splitSep]
  | case2 c => simp [splitSep]
  | case3 c1 c2 rest h ih => simp [splitSep, h]
  | case4 c1 c2 rest h hnil => simp [splitSep, h, hnil]
  | case5 c1 c2 rest h p ps hs ih => simp [splitSep, h, hs]

theorem containsSep_iff (l : List Char) :
    containsSep l = true ↔ 2 ≤ (splitSep l).length := by
  induction l using splitSep.induct with
  | case1 => simp [containsSep, splitSep]
  | case2 c => simp [containsSep, splitSep]
  | case3 c1 c2 rest h ih =>
    have hne := splitSep_ne_nil rest
    simp only [containsSep, splitSep, h, if_true, Bool.true_and, Bool.true_or,
      List.length_cons, true_iff]
    cases hs : splitSep rest <;> simp_all
  | case4 c1 c2 rest h hnil => exact absurd hnil (splitSep_ne_nil _)
  | case5 c1 c2 rest h p ps hs ih =>
    simp only [containsSep, splitSep, if_neg h, hs, Bool.or_eq_true, List.length_cons]
    rw [hs] at ih
    simp only [List.length_cons] at ih
    constructor
    · rintro (hc | hc)
      · exact absurd hc h
      · have := ih.1 hc
        omega
    · intro hlen
      exact Or.inr (ih.2 (by omega))



/-! ## Lemmas about `parse_xml_model` -/

theorem except_error_bind {ε α β : Type} (err : ε) (f : α → Except ε β) :
    ((Except.error err : Except ε α) >>= f) = .error err := rfl

theorem except_ok_bind {ε α β : Type} (a : α) (f : α → Except ε β) :
    ((Except.ok a : Except ε α) >>= f) = f a := rfl

theorem mapM_parse_ok_mem {as : List AggElem} {aggs : List Aggregation}
    (h : as.mapM parse_aggregation = .ok aggs) :
    ∀ e ∈ as, ∃ r, parse_aggregation e = .ok r := by
  induction as generalizing aggs with
  | nil => simp
  | cons e rest ih =>
    rw [List.mapM_cons] at h
    cases he : parse_aggregation e with
    | error err =>
      rw [he, except_error_bind] at h
      cases h
    | ok r =>
      rw [he, except_ok_bind] at h
      cases hrest : rest.mapM parse_aggregation with
      | error err =>
        rw [hrest, except_error_bind] at h
        cases h
      | ok rs =>
        intro x hx
        rcases List.mem_cons.1 hx with hx | hx
        · exact ⟨r, hx ▸ he⟩
        · exact ih hrest x hx

theorem mapM_parse_ok_of_forall {as : List AggElem}
    (h : ∀ e ∈ as, ∃ r, parse_aggregation e = .ok r) :
    ∃ aggs, as.mapM parse_aggregation = .ok aggs := by
  induction as with
  | nil => exact ⟨[], by rw [List.mapM_nil]; rfl⟩
  | cons e rest ih =>
    obtain ⟨r, hr⟩ := h e (List.mem_cons_self _ _)
    obtain ⟨rs, hrs⟩ := ih (fun x hx => h x (List.mem_cons_of_mem _ hx))
    exact ⟨r :: rs, by rw [List.mapM_cons, hr, except_ok_bind, hrs, except_ok_bind]; rfl⟩

theorem parse_doc_ok {cs : List ClassElem} {as : List AggElem}
    {out : Classes × List Aggregation}
    (h : parse_xml_model (.doc cs as) = .ok out) :
    out.1 = foldClasses cs initClasses ∧ as.mapM parse_aggregation = .ok out.2 := by
  simp only [parse_xml_model] at h
  cases hm : as.mapM parse_aggregation with
  | error err =>
    rw [hm, except_error_bind] at h
    cases h
  | ok aggs =>
    rw [hm, except_ok_bind] at h
    have : (foldClasses cs initClasses, aggs) = out := by
      cases h
      rfl
    subst this
    exact ⟨rfl, rfl⟩

theorem parse_doc_ok_of {cs : List ClassElem} {as : List AggElem} {aggs : List Aggregation}
    (h : as.mapM parse_aggregation = .ok aggs) :
    parse_xml_model (.doc cs as) = .ok (foldClasses cs initClasses, aggs) := by
  simp only [parse_xml_model]
  rw [h, except_ok_bind]
  rfl



/-! ## Lemmas about the `classes` dictionary fold -/

theorem foldClasses_nil (m : Classes) : foldClasses [] m = m := rfl

theorem foldClasses_cons (e : ClassElem) (cs : List ClassElem) (m : Classes) :
    foldClasses (e :: cs) m = foldClasses cs (odSet e.name (some (parse_class e)) m) := rfl

theorem foldClasses_keys_sup (cs : List ClassElem) {k : Option String} :
    ∀ (m : Classes), k ∈ m.map Prod.fst → k ∈ (foldClasses cs m).map Prod.fst := by
  induction cs with
  | nil => exact fun m h => h
  | cons e cs ih =>
    intro m h
    rw [foldClasses_cons]
    apply ih
    rw [odSet_map_fst]
    split
    · exact h
    · exact List.mem_append_left _ h

theorem foldClasses_keys_nodup (cs : List ClassElem) :
    ∀ (m : Classes), (m.map Prod.fst).Nodup → ((foldClasses cs m).map Prod.fst).Nodup := by
  induction cs with
  | nil => exact fun m h => h
  | cons e cs ih =>
    intro m h
    rw [foldClasses_cons]
    exact ih _ (odSet_keys_nodup _ _ _ h)

theorem foldClasses_populated (cs : List ClassElem) :
    ∀ (m : Classes) (k : Option String),
      (∃ c, odGet k (foldClasses cs m) = some (some c)) ↔
        ((∃ e ∈ cs, e.name = k) ∨ ∃ c, odGet k m = some (some c)) := by
  induction cs with
  | nil =>
    intro m k
    simp [foldClasses_nil]
  | cons e cs ih =>
    intro m k
    rw [foldClasses_cons, ih]
    by_cases hk : k = e.name
    · subst hk
      apply iff_of_true
      · exact Or.inr ⟨parse_class e, by rw [odGet_odSet_self]⟩
      · exact Or.inl ⟨e, List.mem_cons_self _ _, rfl⟩
    · rw [odGet_odSet_ne _ _ _ _ hk]
      constructor
      · rintro (⟨e', he', hn⟩ | hc)
        · exact Or.inl ⟨e', List.mem_cons_of_mem _ he', hn⟩
        · exact Or.inr hc
      · rintro (⟨e', he', hn⟩ | hc)
        · rcases List.mem_cons.1 he' with he' | he'
          · exact absurd (he' ▸ hn) (fun hh => hk hh.symm)
          · exact Or.inl ⟨e', he', hn⟩
        · exact Or.inr hc

theorem odGet_initClasses_not_populated (k : Option String) (c : ClassDef) :
    odGet k initClasses ≠ some (some c) := by
  simp only [initClasses, class_order, List.map_cons, List.map_nil]
  simp only [odGet_cons]
  split_ifs <;> simp

theorem map_fst_filter_map_update {q q' : Option String × Option ClassDef → Bool}
    {u : Option String × Option ClassDef → Option String × Option ClassDef}
    (hu : ∀ p, (u p).1 = p.1) :
    ∀ (m : Classes), (∀ p ∈ m, q (u p) = q' p) →
      ((m.map u).filter q).map Prod.fst = (m.filter q').map Prod.fst := by
  intro m
  induction m with
  | nil => intro _; rfl
  | cons p rest ih =>
    intro hq
    have hqp := hq p (List.mem_cons_self _ _)
    have ihr := ih (fun x hx => hq x (List.mem_cons_of_mem _ hx))
    simp only [List.map_cons, List.filter_cons]
    cases hvp : q' p with
    | true => rw [hqp, hvp]; simp only [if_true, List.map_cons, ihr, hu p]
    | false => rw [hqp, hvp]; simpa using ihr

/-- Filtering the populated keys of the fully-folded `classes` dictionary to
the canonical enumeration gives the canonical names assigned by the input
(or already populated in `m`), in the key order of `m`. -/
theorem foldClasses_canonical_filter (cs : List ClassElem) :
    ∀ (m : Classes), (∀ s ∈ class_order, (some s : Option String) ∈ m.map Prod.fst) →
      (((foldClasses cs m).filter (fun p => p.2.isSome)).map Prod.fst).filter
          (fun n => decide (n ∈ class_order.map some)) =
        ((m.filter (fun p => p.2.isSome || cs.any (fun e' => e'.name == p.1))).map
            Prod.fst).filter
          (fun n => decide (n ∈ class_order.map some)) := by
  induction cs with
  | nil =>
    intro m _
    rw [foldClasses_nil]
    simp
  | cons e cs ih =>
    intro m hcanon
    have hcanon' : ∀ s ∈ class_order,
        (some s : Option String) ∈ (odSet e.name (some (parse_class e)) m).map Prod.fst := by
      intro s hs
      rw [odSet_map_fst]
      split
      · exact hcanon s hs
      · exact List.mem_append_left _ (hcanon s hs)
    rw [foldClasses_cons, ih _ hcanon']
    by_cases hmem : e.name ∈ m.map Prod.fst
    · have hset : odSet e.name (some (parse_class e)) m =
          m.map (fun p => if p.1 = e.name then (e.name, some (parse_class e)) else p) := by
        unfold odSet
        rw [if_pos hmem]
      rw [hset]
      have hfst : ∀ p : Option String × Option ClassDef,
          ((if p.1 = e.name then (e.name, some (parse_class e)) else p).1) = p.1 := by
        intro p
        by_cases h : p.1 = e.name <;> simp [h]
      have hpred : ∀ p ∈ m,
          (fun p => p.2.isSome || cs.any (fun e' => e'.name == p.1))
              (if p.1 = e.name then (e.name, some (parse_class e)) else p)
            = ((fun p => p.2.isSome || (e :: cs).any (fun e' => e'.name == p.1)) p) := by
        intro p _
        by_cases h : p.1 = e.name
        · simp [h, List.any_cons]
        · have hbe : (e.name == p.1) = false := by
            simp only [beq_eq_false_iff_ne]
            exact fun hh => h hh.symm
          simp [h, List.any_cons, hbe]
      rw [map_fst_filter_map_update hfst m hpred]
    · have hset : odSet e.name (some (parse_class e)) m =
          m ++ [(e.name, some (parse_class e))] := by
        unfold odSet
        rw [if_neg hmem]
      rw [hset, List.filter_append, List.map_append, List.filter_append]
      have hnew : ([(e.name, some (parse_class e))].filter
          (fun p => p.2.isSome || cs.any (fun e' => e'.name == p.1))) =
            [(e.name, some (parse_class e))] := by
        simp
      rw [hnew]
      have hncanon : (decide (e.name ∈ class_order.map some)) = false := by
        simp only [decide_eq_false_iff_not]
        intro hin
        rcases List.mem_map.1 hin with ⟨s, hs, hterm⟩
        exact hmem (hterm ▸ hcanon s hs)
      have hnil : (([(e.name, some (parse_class e))].map Prod.fst).filter
          (fun n => decide (n ∈ class_order.map some))) = [] := by
        simp only [List.map_cons, List.map_nil, List.filter_cons, hncanon]
        rfl
      rw [hnil, List.append_nil]
      have hpred : ∀ p ∈ m,
          (p.2.isSome || cs.any (fun e' => e'.name == p.1))
            = (p.2.isSome || (e :: cs).any (fun e' => e'.name == p.1)) := by
        intro p hp
        have hne : p.1 ≠ e.name := by
          intro hh
          exact hmem (hh ▸ List.mem_map_of_mem Prod.fst hp)
        have : (e.name == p.1) = false := by
          simp only [beq_eq_false_iff_ne]
          exact fun hh => hne hh.symm
        simp [List.any_cons, this]
      rw [List.filter_congr hpred]

theorem generate_meta_className (classes : Classes) (aggs : List Aggregation) :
    (generate_meta_json classes aggs).map (·.className) =
      (classes.filter (fun p => p.2.isSome)).map Prod.fst := by
  unfold generate_meta_json
  induction classes with
  | nil => rfl
  | cons p rest ih =>
    cases hp : p.2 with
    | none => simpa [List.filterMap_cons, hp, List.filter_cons] using ih
    | some cls =>
      simpa [List.filterMap_cons, hp, List.filter_cons, metaEntryFor] using ih

theorem populated_mem_meta {classes : Classes} (aggs : List Aggregation)
    {k : Option String} {c : ClassDef} (h : odGet k classes = some (some c)) :
    ∃ entry ∈ generate_meta_json classes aggs, entry.className = k := by
  refine ⟨metaEntryFor aggs (buildSourceInfo aggs) k c, ?_, rfl⟩
  unfold generate_meta_json
  exact List.mem_filterMap.2 ⟨(k, some c), odGet_mem h, by simp⟩



/-! ## Characterization of `source_info` (first target wins, last value wins) -/

theorem find?_append {α : Type} (p : α → Bool) (l₁ l₂ : List α) :
    (l₁ ++ l₂).find? p =
      match l₁.find? p with
      | some x => some x
      | none => l₂.find? p := by
  induction l₁ with
  | nil => simp
  | cons b t ih =>
    cases hb : p b <;> simp [List.find?_cons, hb, ih]

theorem buildSourceInfo_append (l : List Aggregation) (a : Aggregation) :
    buildSourceInfo (l ++ [a]) =
      odSet a.source
        (odSet a.target (a.source_max, a.source_min)
          ((odGet a.source (buildSourceInfo l)).getD []))
        (buildSourceInfo l) := by
  unfold buildSourceInfo
  rw [List.foldl_append]
  rfl

theorem firstAggFor_append_src (l : List Aggregation) (a : Aggregation) :
    firstAggFor a.source (l ++ [a]) =
      match firstAggFor a.source l with
      | some a0 => some a0
      | none => some a := by
  rw [firstAggFor, find?_append]
  cases hf : l.find? (fun x => x.source == a.source) <;>
    simp [firstAggFor, hf, List.find?_cons]

theorem firstAggFor_append_other (l : List Aggregation) (a : Aggregation)
    (cn : Option String) (h : ¬a.source = cn) :
    firstAggFor cn (l ++ [a]) = firstAggFor cn l := by
  rw [firstAggFor, find?_append]
  cases hf : l.find? (fun x => x.source == cn) <;>
    simp [firstAggFor, hf, List.find?_cons, h]

theorem lastAggFor_append_hit (l : List Aggregation) (a : Aggregation)
    (t : Option String) (ht : a.target = t) :
    lastAggFor a.source t (l ++ [a]) = some a := by
  rw [lastAggFor, List.filter_append, List.filter_cons]
  rw [show ((a.source == a.source) && (a.target == t)) = true by simp [ht]]
  simp [List.getLast?_concat]

theorem lastAggFor_append_miss_src (l : List Aggregation) (a : Aggregation)
    (cn t : Option String) (h : ¬a.source = cn) :
    lastAggFor cn t (l ++ [a]) = lastAggFor cn t l := by
  rw [lastAggFor, lastAggFor, List.filter_append, List.filter_cons]
  rw [show ((a.source == cn) && (a.target == t)) = false by simp [h]]
  simp

theorem lastAggFor_append_miss_tgt (l : List Aggregation) (a : Aggregation)
    (t : Option String) (h : ¬a.target = t) :
    lastAggFor a.source t (l ++ [a]) = lastAggFor a.source t l := by
  rw [lastAggFor, lastAggFor, List.filter_append, List.filter_cons]
  rw [show ((a.source == a.source) && (a.target == t)) = false by simp [h]]
  simp

theorem sourceInfo_char (aggs : List Aggregation) (cn : Option String) :
    (firstAggFor cn aggs = none → odGet cn (buildSourceInfo aggs) = none) ∧
    (∀ a0, firstAggFor cn aggs = some a0 →
      ∃ inner aL, odGet cn (buildSourceInfo aggs) = some inner ∧
        lastAggFor cn a0.target aggs = some aL ∧
        inner.head? = some (a0.target, (aL.source_max, aL.source_min))) := by
  induction aggs using List.reverseRecOn with
  | nil =>
    refine ⟨fun _ => rfl, fun a0 h => absurd h (by simp [firstAggFor])⟩
  | append_singleton l a ih =>
    rw [buildSourceInfo_append]
    by_cases hcn : cn = a.source
    · subst hcn
      cases hfst : firstAggFor a.source l with
      | none =>
        have hget : odGet a.source (buildSourceInfo l) = none := ih.1 hfst
        have hfst' : firstAggFor a.source (l ++ [a]) = some a := by
          rw [firstAggFor_append_src, hfst]
        refine ⟨fun h => absurd h (by rw [hfst']; simp), ?_⟩
        intro a0 h0
        rw [hfst'] at h0
        cases h0
        refine ⟨[(a.target, (a.source_max, a.source_min))], a, ?_, ?_, rfl⟩
        · rw [hget]
          exact odGet_odSet_self _ _ _
        · exact lastAggFor_append_hit l a a.target rfl
      | some a0 =>
        obtain ⟨inner, aL, hget, hlast, hhead⟩ := ih.2 a0 hfst
        have hfst' : firstAggFor a.source (l ++ [a]) = some a0 := by
          rw [firstAggFor_append_src, hfst]
        refine ⟨fun h => absurd h (by rw [hfst']; simp), ?_⟩
        intro a1 h1
        rw [hfst'] at h1
        cases h1
        rw [hget]
        simp only [Option.getD_some]
        refine ⟨odSet a.target (a.source_max, a.source_min) inner, ?_⟩
        by_cases htgt : a.target = a0.target
        · refine ⟨a, odGet_odSet_self _ _ _, lastAggFor_append_hit l a a0.target htgt, ?_⟩
          rw [odGet_head_odSet hhead]
          simp [htgt]
        · refine ⟨aL, odGet_odSet_self _ _ _,
            by rw [lastAggFor_append_miss_tgt l a a0.target htgt]; exact hlast, ?_⟩
          rw [odGet_head_odSet hhead]
          rw [if_neg (show ¬((a0.target, (aL.source_max, aL.source_min)) :
              Option String × String × String).1 = a.target from fun hh => htgt hh.symm)]
    · have hne : ¬a.source = cn := fun hh => hcn hh.symm
      rw [odGet_odSet_ne _ _ _ _ hcn, firstAggFor_append_other l a cn hne]
      refine ⟨ih.1, ?_⟩
      intro a0 h0
      obtain ⟨inner, aL, h1, h2, h3⟩ := ih.2 a0 h0
      exact ⟨inner, aL, h1,
        by rw [lastAggFor_append_miss_src l a cn a0.target hne]; exact h2, h3⟩



/-! ## Characterization of the child sorts -/

theorem jobChildKey_le_one (e : ContainmentEntry) : jobChildKey e ≤ 1 := by
  unfold jobChildKey
  split <;> omega

theorem mgmtSortL_eq (l : List ContainmentEntry) :
    mgmtSortL l = l.filter (fun e => jobChildKey e == 0) ++
      l.filter (fun e => jobChildKey e == 1) :=
  pySort_eq_two jobChildKey l (fun x _ => jobChildKey_le_one x)

theorem mgmtSortL_perm (l : List ContainmentEntry) : List.Perm (mgmtSortL l) l :=
  pySort_perm _ l

theorem btsSortL_perm (l : List ContainmentEntry) : List.Perm (btsSortL l) l :=
  pySort_perm _ l

theorem pySort_pairwise_id {α : Type} (key : α → Nat) (l : List α)
    (h : l.Pairwise (fun a b => key a ≤ key b)) : pySort key l = l := by
  induction l with
  | nil => rfl
  | cons a t ih =>
    have hc := List.pairwise_cons.1 h
    show pyInsert key a (pySort key t) = a :: t
    rw [ih hc.2, pyInsert_front key a hc.1]

theorem mgmtSortL_idem (l : List ContainmentEntry) :
    mgmtSortL (mgmtSortL l) = mgmtSortL l := by
  rw [mgmtSortL_eq l]
  apply pySort_pairwise_id
  rw [List.pairwise_append]
  refine ⟨?_, ?_, ?_⟩
  · apply List.pairwise_of_forall_mem_list
    intro a ha b hb
    have ha' := (List.mem_filter.1 ha).2
    have hb' := (List.mem_filter.1 hb).2
    simp only [beq_iff_eq] at ha' hb'
    omega
  · apply List.pairwise_of_forall_mem_list
    intro a ha b hb
    have ha' := (List.mem_filter.1 ha).2
    have hb' := (List.mem_filter.1 hb).2
    simp only [beq_iff_eq] at ha' hb'
    omega
  · intro a ha b hb
    have ha' := (List.mem_filter.1 ha).2
    have hb' := (List.mem_filter.1 hb).2
    simp only [beq_iff_eq] at ha' hb'
    omega

theorem btsSortL_eq (l : List ContainmentEntry) (h : ∀ e ∈ l, btsIdx e.cls < 3) :
    btsSortL l = l.filter (fun e => btsIdx e.cls == 0) ++
      l.filter (fun e => btsIdx e.cls == 1) ++ l.filter (fun e => btsIdx e.cls == 2) :=
  pySort_eq_three _ l (fun x hx => by have := h x hx; omega)

theorem btsSortL_idem (l : List ContainmentEntry) (h : ∀ e ∈ l, btsIdx e.cls < 3) :
    btsSortL (btsSortL l) = btsSortL l := by
  rw [btsSortL_eq l h]
  apply pySort_pairwise_id
  rw [List.pairwise_append, List.pairwise_append]
  have keyOf : ∀ (i : Nat) (a : ContainmentEntry),
      a ∈ l.filter (fun e => btsIdx e.cls == i) → btsIdx a.cls = i := by
    intro i a ha
    have := (List.mem_filter.1 ha).2
    simpa using this
  refine ⟨⟨?_, ?_, ?_⟩, ?_, ?_⟩
  · apply List.pairwise_of_forall_mem_list
    intro a ha b hb
    rw [keyOf 0 a ha, keyOf 0 b hb]
  · apply List.pairwise_of_forall_mem_list
    intro a ha b hb
    rw [keyOf 1 a ha, keyOf 1 b hb]
  · intro a ha b hb
    rw [keyOf 0 a ha, keyOf 1 b hb]
    omega
  · apply List.pairwise_of_forall_mem_list
    intro a ha b hb
    rw [keyOf 2 a ha, keyOf 2 b hb]
  · intro a ha b hb
    rcases List.mem_append.1 ha with ha | ha
    · rw [keyOf 0 a ha, keyOf 2 b hb]
      omega
    · rw [keyOf 1 a ha, keyOf 2 b hb]
      omega



/-! ## The state invariant of `generate_config_xml`'s in-place sorts -/

theorem Inv.refl (c₀ : Containment) : Inv c₀ c₀ :=
  ⟨fun _ _ _ => rfl, Or.inl rfl, Or.inl rfl⟩

theorem sortStep_spec {c₀ c c₁ : Containment} {cn : Option String}
    {contained sorted : List ContainmentEntry}
    (hInv : Inv c₀ c) (hcont : odGet cn c = some contained)
    (hstep : sortStep cn contained c = .ok (sorted, c₁)) :
    Inv c₀ c₁ ∧ ∃ l₀, odGet cn c₀ = some l₀ ∧
      ((cn = some "MGMT" ∧ sorted = mgmtSortL l₀) ∨
       (cn = some "BTS" ∧ sorted = btsSortL l₀ ∧ ∀ e ∈ l₀, btsIdx e.cls < 3) ∨
       (cn ≠ some "MGMT" ∧ cn ≠ some "BTS" ∧ sorted = l₀)) := by
  obtain ⟨hother, hmgmt, hbts⟩ := hInv
  unfold sortStep at hstep
  by_cases hM : cn = some "MGMT"
  · rw [if_pos hM] at hstep
    cases hstep
    subst hM
    have hl₀ : ∃ l₀, odGet (some "MGMT") c₀ = some l₀ ∧
        mgmtSortL contained = mgmtSortL l₀ := by
      rcases hmgmt with h | ⟨l, hl, hc⟩
      · exact ⟨contained, h ▸ hcont, rfl⟩
      · rw [hcont] at hc
        cases hc
        exact ⟨l, hl, mgmtSortL_idem l⟩
    obtain ⟨l₀, hl₀, hsort⟩ := hl₀
    refine ⟨⟨?_, ?_, ?_⟩, l₀, hl₀, Or.inl ⟨rfl, hsort⟩⟩
    · intro k h1 h2
      rw [odGet_odSet_ne _ _ _ _ h1]
      exact hother k h1 h2
    · right
      exact ⟨l₀, hl₀, by rw [odGet_odSet_self, hsort]⟩
    · rw [odGet_odSet_ne _ _ _ _ (by simp)]
      exact hbts
  · rw [if_neg hM] at hstep
    by_cases hB : cn = some "BTS"
    · rw [if_pos hB] at hstep
      by_cases hguard : contained.all (fun e => decide (btsIdx e.cls < 3))
      · rw [if_pos hguard] at hstep
        cases hstep
        subst hB
        have hguard' : ∀ e ∈ contained, btsIdx e.cls < 3 := by
          intro e he
          have := List.all_eq_true.1 hguard e he
          simpa using this
        have hl₀ : ∃ l₀, odGet (some "BTS") c₀ = some l₀ ∧
            btsSortL contained = btsSortL l₀ ∧ ∀ e ∈ l₀, btsIdx e.cls < 3 := by
          rcases hbts with h | ⟨l, hl, hc, hg⟩
          · exact ⟨contained, h ▸ hcont, rfl, hguard'⟩
          · rw [hcont] at hc
            cases hc
            exact ⟨l, hl, btsSortL_idem l hg, hg⟩
        obtain ⟨l₀, hl₀, hsort, hg₀⟩ := hl₀
        refine ⟨⟨?_, ?_, ?_⟩, l₀, hl₀, Or.inr (Or.inl ⟨rfl, hsort, hg₀⟩)⟩
        · intro k h1 h2
          rw [odGet_odSet_ne _ _ _ _ h2]
          exact hother k h1 h2
        · rw [odGet_odSet_ne _ _ _ _ (by simp)]
          exact hmgmt
        · right
          exact ⟨l₀, hl₀, by rw [odGet_odSet_self, hsort], hg₀⟩
      · rw [if_neg hguard] at hstep
        cases hstep
    · rw [if_neg hB] at hstep
      cases hstep
      have hc₀ : odGet cn c₀ = some contained := by
        rw [← hother cn hM hB]
        exact hcont
      exact ⟨⟨hother, hmgmt, hbts⟩, contained, hc₀, Or.inr (Or.inr ⟨hM, hB, rfl⟩)⟩



theorem buildForest_nil (classes : Classes) (fuel : Nat) (c : Containment) :
    buildForest classes fuel [] c = .ok ([], c) := by
  cases fuel <;> rfl

theorem buildForest_zero (classes : Classes) (cn : Option String)
    (rest : List (Option String)) (c : Containment) :
    buildForest classes 0 (cn :: rest) c = .error .recursionError := rfl

theorem buildForest_succ (classes : Classes) (fuel : Nat) (cn : Option String)
    (rest : List (Option String)) (c : Containment) :
    buildForest classes (fuel + 1) (cn :: rest) c =
      match odGet cn classes with
      | none => .error .keyError
      | some none => .error .typeError
      | some (some cls) =>
        match odGet cn c with
        | none =>
          match buildForest classes fuel rest c with
          | .error e => .error e
          | .ok (siblings, c₁) => .ok (⟨cn, cls.attributes, []⟩ :: siblings, c₁)
        | some contained =>
          match sortStep cn contained c with
          | .error e => .error e
          | .ok (sorted, c₁) =>
            match buildForest classes fuel (sorted.map (·.cls)) c₁ with
            | .error e => .error e
            | .ok (children, c₂) =>
              match buildForest classes fuel rest c₂ with
              | .error e => .error e
              | .ok (siblings, c₃) =>
                .ok (⟨cn, cls.attributes, children⟩ :: siblings, c₃) := rfl

theorem nodesOfList_nil : nodesOfList [] = [] := rfl

theorem nodesOfList_cons (n : ConfigNode) (rest : List ConfigNode) :
    nodesOfList (n :: rest) = nodesOf n ++ nodesOfList rest := rfl

theorem nodesOf_mk (nm : Option String) (ats : List (Option String × Option String))
    (ch : List ConfigNode) :
    nodesOf ⟨nm, ats, ch⟩ = ⟨nm, ats, ch⟩ :: nodesOfList ch := rfl



theorem childSpec_mk {c₀ : Containment} {cn : Option String}
    {attrs : List (Option String × Option String)} {children : List ConfigNode}
    (h1 : odGet cn c₀ = none → children = [])
    (h2 : ∀ l, odGet cn c₀ = some l →
      (cn = some "MGMT" → children.map (·.name) = (mgmtSortL l).map (·.cls)) ∧
      (cn = some "BTS" → children.map (·.name) = (btsSortL l).map (·.cls) ∧
        ∀ e ∈ l, btsIdx e.cls < 3) ∧
      (cn ≠ some "MGMT" → cn ≠ some "BTS" →
        children.map (·.name) = l.map (·.cls))) :
    childSpec c₀ ⟨cn, attrs, children⟩ :=
  ⟨h1, h2⟩

/-- Master specification of the config-tree construction: a successful run
keeps the containment index related to its initial state by `Inv`, emits one
node per requested class name (in order), and every node of the produced
forest has the children dictated by the originally-built containment index
(with the `MGMT`/`BTS` reorderings applied). -/
theorem buildForest_spec (classes : Classes) (c₀ : Containment) :
    ∀ (fuel : Nat) (names : List (Option String)) (c : Containment)
      (nodes : List ConfigNode) (c' : Containment),
      Inv c₀ c → buildForest classes fuel names c = .ok (nodes, c') →
      Inv c₀ c' ∧ nodes.map (·.name) = names ∧
        ∀ n ∈ nodesOfList nodes, childSpec c₀ n := by
  intro fuel
  induction fuel with
  | zero =>
    intro names c nodes c' hInv hok
    cases names with
    | nil =>
      rw [buildForest_nil] at hok
      cases hok
      exact ⟨hInv, rfl, by simp [nodesOfList_nil]⟩
    | cons cn rest =>
      rw [buildForest_zero] at hok
      cases hok
  | succ fuel ihf =>
    intro names c nodes c' hInv hok
    cases names with
    | nil =>
      rw [buildForest_nil] at hok
      cases hok
      exact ⟨hInv, rfl, by simp [nodesOfList_nil]⟩
    | cons cn rest =>
      rw [buildForest_succ] at hok
      cases hcls : odGet cn classes with
      | none =>
        simp only [hcls] at hok
        cases hok
      | some ocls =>
        simp only [hcls] at hok
        cases ocls with
        | none => cases hok
        | some cls =>
          cases hcont : odGet cn c with
          | none =>
            simp only [hcont] at hok
            cases hrest : buildForest classes fuel rest c with
            | error e =>
              simp only [hrest] at hok
              cases hok
            | ok pr =>
              obtain ⟨siblings, c₁⟩ := pr
              simp only [hrest] at hok
              cases hok
              obtain ⟨hInv₁, hmap, hspec⟩ := ihf _ _ _ _ hInv hrest
              have hc₀ : odGet cn c₀ = none := by
                obtain ⟨hother, hmgmt, hbts⟩ := hInv
                by_cases hM : cn = some "MGMT"
                · subst hM
                  rcases hmgmt with h | ⟨l, hl, hc⟩
                  · rw [← h]
                    exact hcont
                  · rw [hcont] at hc
                    cases hc
                · by_cases hB : cn = some "BTS"
                  · subst hB
                    rcases hbts with h | ⟨l, hl, hc, hg⟩
                    · rw [← h]
                      exact hcont
                    · rw [hcont] at hc
                      cases hc
                  · rw [← hother cn hM hB]
                    exact hcont
              refine ⟨hInv₁, by simp [hmap], ?_⟩
              intro n hn
              rw [nodesOfList_cons, nodesOf_mk, nodesOfList_nil] at hn
              rcases List.mem_append.1 hn with hn | hn
              · rcases List.mem_cons.1 hn with hn | hn
                · subst hn
                  refine childSpec_mk (fun _ => rfl) ?_
                  intro l hl
                  rw [hc₀] at hl
                  cases hl
                · cases hn
              · exact hspec n hn
          | some contained =>
            simp only [hcont] at hok
            cases hsort : sortStep cn contained c with
            | error e =>
              simp only [hsort] at hok
              cases hok
            | ok pr₁ =>
              obtain ⟨sorted, c₁⟩ := pr₁
              simp only [hsort] at hok
              cases hch : buildForest classes fuel (sorted.map (·.cls)) c₁ with
              | error e =>
                simp only [hch] at hok
                cases hok
              | ok pr₂ =>
                obtain ⟨children, c₂⟩ := pr₂
                simp only [hch] at hok
                cases hsib : buildForest classes fuel rest c₂ with
                | error e =>
                  simp only [hsib] at hok
                  cases hok
                | ok pr₃ =>
                  obtain ⟨siblings, c₃⟩ := pr₃
                  simp only [hsib] at hok
                  cases hok
                  obtain ⟨hInv₁, l₀, hc₀l, hcase⟩ := sortStep_spec hInv hcont hsort
                  obtain ⟨hInv₂, hmapch, hspecch⟩ := ihf _ _ _ _ hInv₁ hch
                  obtain ⟨hInv₃, hmapsib, hspecsib⟩ := ihf _ _ _ _ hInv₂ hsib
                  refine ⟨hInv₃, by simp [hmapsib], ?_⟩
                  intro n hn
                  rw [nodesOfList_cons, nodesOf_mk] at hn
                  rcases List.mem_append.1 hn with hn | hn
                  · rcases List.mem_cons.1 hn with hn | hn
                    · subst hn
                      refine childSpec_mk ?_ ?_
                      · intro hnone
                        rw [hc₀l] at hnone
                        cases hnone
                      · intro l hl
                        rw [hc₀l] at hl
                        cases hl
                        refine ⟨?_, ?_, ?_⟩
                        · intro hM
                          rcases hcase with ⟨_, hs⟩ | ⟨hB, _⟩ | ⟨hM', _, _⟩
                          · rw [hmapch, hs]
                          · exact absurd (hM.symm.trans hB) (by decide)
                          · exact absurd hM hM'
                        · intro hB
                          rcases hcase with ⟨hM, _⟩ | ⟨_, hs, hg⟩ | ⟨_, hB', _⟩
                          · exact absurd (hB.symm.trans hM) (by decide)
                          · exact ⟨by rw [hmapch, hs], hg⟩
                          · exact absurd hB hB'
                        · intro hM hB
                          rcases hcase with ⟨hM', _⟩ | ⟨hB', _, _⟩ | ⟨_, _, hs⟩
                          · exact absurd hM' hM
                          · exact absurd hB' hB
                          · rw [hmapch, hs]
                    · exact hspecch n hn
                  · exact hspecsib n hn



/-! ## Structure of metadata entries -/

theorem metaEntryFor_className (aggs : List Aggregation) (si : SourceInfo)
    (cn : Option String) (cls : ClassDef) :
    (metaEntryFor aggs si cn cls).className = cn := rfl

theorem metaEntryFor_maxMin (aggs : List Aggregation) (si : SourceInfo)
    (cn : Option String) (cls : ClassDef) :
    (metaEntryFor aggs si cn cls).maxMin =
      (odGet cn si).bind (fun inner => inner.head?.map Prod.snd) := rfl

theorem metaEntryFor_parameters (aggs : List Aggregation) (si : SourceInfo)
    (cn : Option String) (cls : ClassDef) :
    (metaEntryFor aggs si cn cls).parameters =
      cls.attributes ++
        (if cn = some "MGMT" then
          pySort jobParamKey
            ((aggs.filter (fun a => a.target = cn)).map (fun a => (a.source, some "class")))
        else
          (aggs.filter (fun a => a.target = cn)).map (fun a => (a.source, some "class"))) := rfl

theorem mem_meta_struct {classes : Classes} {aggs : List Aggregation} {entry : MetaEntry}
    (h : entry ∈ generate_meta_json classes aggs) :
    ∃ k cls, (k, some cls) ∈ classes ∧
      entry = metaEntryFor aggs (buildSourceInfo aggs) k cls := by
  unfold generate_meta_json at h
  obtain ⟨p, hp, hfp⟩ := List.mem_filterMap.1 h
  cases hpc : p.2 with
  | none =>
    rw [hpc] at hfp
    cases hfp
  | some cls =>
    rw [hpc] at hfp
    simp only [Option.map_some'] at hfp
    cases hfp
    refine ⟨p.1, cls, ?_, rfl⟩
    have : p = (p.1, some cls) := by
      rw [← hpc]
    rw [← this]
    exact hp

/-! ## Claim theorems -/

/-- **C5.** For every `Aggregation` element parsed: a `sourceMultiplicity`
without the `..` separator gives `source_min = source_max =` the raw value;
one split into exactly two parts gives `source_min` = the part before and
`source_max` = the part after; `target_min`/`target_max` are always both the
raw `targetMultiplicity`, unsplit. -/
theorem C5_multiplicity_split (e : AggElem) (sm : String)
    (hsm : e.sourceMultiplicity = some sm) :
    (∀ r, parse_aggregation e = .ok r →
      r.target_min = e.targetMultiplicity ∧ r.target_max = e.targetMultiplicity) ∧
    (containsSep sm.toList = false →
      parse_aggregation e =
        .ok ⟨e.source, e.target, sm, sm, e.targetMultiplicity, e.targetMultiplicity⟩) ∧
    (∀ a b, containsSep sm.toList = true → splitSep sm.toList = [a, b] →
      parse_aggregation e =
        .ok ⟨e.source, e.target, String.mk a, String.mk b,
             e.targetMultiplicity, e.targetMultiplicity⟩) := by
  refine ⟨?_, ?_, ?_⟩
  · intro r hr
    simp only [parse_aggregation, hsm] at hr
    by_cases hc : containsSep sm.toList
    · rw [if_pos hc] at hr
      cases hsp : splitSep sm.toList with
      | nil =>
        rw [hsp] at hr
        cases hr
      | cons a t =>
        cases t with
        | nil =>
          rw [hsp] at hr
          cases hr
        | cons b t2 =>
          cases t2 with
          | nil =>
            rw [hsp] at hr
            cases hr
            exact ⟨rfl, rfl⟩
          | cons x t3 =>
            rw [hsp] at hr
            cases hr
    · rw [if_neg hc] at hr
      cases hr
      exact ⟨rfl, rfl⟩
  · intro hc
    simp only [parse_aggregation, hsm]
    rw [if_neg (by rw [hc]; exact fun hh => Bool.noConfusion hh)]
  · intro a b hc hsp
    simp only [parse_aggregation, hsm]
    rw [if_pos hc, hsp]

/-- Witness for C5 at the spec's own examples `"0..1"` and `"1"`. -/
theorem C5_multiplicity_split_witness :
    parse_aggregation ⟨some "A", some "B", some "0..1", some "7"⟩ =
      .ok ⟨some "A", some "B", "0", "1", some "7", some "7"⟩ ∧
    parse_aggregation ⟨some "A", some "B", some "1", some "7"⟩ =
      .ok ⟨some "A", some "B", "1", "1", some "7", some "7"⟩ := by
  constructor
  · have h := (C5_multiplicity_split ⟨some "A", some "B", some "0..1", some "7"⟩ "0..1"
      rfl).2.2 ['0'] ['1'] (by decide) (by decide)
    exact h
  · have h := (C5_multiplicity_split ⟨some "A", some "B", some "1", some "7"⟩ "1"
      rfl).2.1 (by decide)
    exact h

/-- **C10.** A `sourceMultiplicity` containing the separator more than once
(three or more split parts, e.g. `"0..1..2"`) makes `parse_aggregation` raise
`ValueError` from the two-variable unpack; any successfully parsed value
split into at most two parts. -/
theorem C10_multi_separator (e : AggElem) (sm : String)
    (hsm : e.sourceMultiplicity = some sm) :
    (3 ≤ (splitSep sm.toList).length → parse_aggregation e = .error .valueError) ∧
    (∀ r, parse_aggregation e = .ok r → (splitSep sm.toList).length ≤ 2) := by
  constructor
  · intro hlen
    have hc : containsSep sm.toList = true :=
      (containsSep_iff sm.toList).2 (by omega)
    simp only [parse_aggregation, hsm]
    rw [if_pos hc]
    have hlen' : 3 ≤ (splitSep sm.toList).length := hlen
    cases hsp : splitSep sm.toList with
    | nil => rfl
    | cons a t =>
      cases t with
      | nil => rfl
      | cons b t2 =>
        cases t2 with
        | nil =>
          rw [hsp] at hlen'
          simp at hlen'
        | cons x t3 => rfl
  · intro r hr
    simp only [parse_aggregation, hsm] at hr
    by_cases hc : containsSep sm.toList
    · rw [if_pos hc] at hr
      cases hsp : splitSep sm.toList with
      | nil => simp [hsp]
      | cons a t =>
        cases t with
        | nil => simp [hsp]
        | cons b t2 =>
          cases t2 with
          | nil => simp [hsp]
          | cons x t3 =>
            rw [hsp] at hr
            cases hr
    · have : ¬2 ≤ (splitSep sm.toList).length := fun hh =>
        absurd ((containsSep_iff sm.toList).2 hh) (by simpa using hc)
      omega

/-- Witness for C10 at the claim's example `"0..1..2"`. -/
theorem C10_multi_separator_witness :
    3 ≤ (splitSep ("0..1..2").toList).length ∧
    parse_aggregation ⟨some "A", some "B", some "0..1..2", some "1"⟩ =
      .error .valueError :=
  ⟨by decide,
   (C10_multi_separator ⟨some "A", some "B", some "0..1..2", some "1"⟩ "0..1..2" rfl).1
     (by decide)⟩



/-- **C8 (counterexample).** A `Class` element with no `name` attribute and
an `Aggregation` element lacking `source`, `target` and
`targetMultiplicity` (but having a `sourceMultiplicity`) do NOT abort the
parse: `parse_xml_model` returns a model, storing the missing attributes as
null. -/
theorem C8_counterexample :
    (parse_xml_model (.doc
      [⟨none, some "true", none, []⟩]
      [⟨none, none, some "1", none⟩])).isOk = true := by rfl

/-- **C8 (amended).** `parse_xml_model` aborts when the document is not
well-formed, and when some `Aggregation` element lacks
`sourceMultiplicity` (the `'..' in None` membership test raises
`TypeError`); when every `Aggregation` element parses (in particular
regardless of missing `name`/`source`/`target`/`targetMultiplicity`
attributes, which are stored as null), it returns the populated model. -/
theorem C8_amended :
    parse_xml_model .malformed = .error .parseError ∧
    (∀ (cs : List ClassElem) (as : List AggElem) (e : AggElem), e ∈ as →
      e.sourceMultiplicity = none →
      ∀ out, parse_xml_model (.doc cs as) ≠ .ok out) ∧
    (∀ (cs : List ClassElem) (as : List AggElem),
      (∀ e ∈ as, ∃ r, parse_aggregation e = .ok r) →
      ∃ aggs, parse_xml_model (.doc cs as) = .ok (foldClasses cs initClasses, aggs)) := by
  refine ⟨rfl, ?_, ?_⟩
  · intro cs as e he hsm out hok
    obtain ⟨_, hm⟩ := parse_doc_ok hok
    obtain ⟨r, hr⟩ := mapM_parse_ok_mem hm e he
    rw [show parse_aggregation e = .error .typeError from by
      unfold parse_aggregation
      rw [hsm]] at hr
    cases hr
  · intro cs as h
    obtain ⟨aggs, haggs⟩ := mapM_parse_ok_of_forall h
    exact ⟨aggs, parse_doc_ok_of haggs⟩

/-- Witness for C8 (amended), instantiating the abort case at an
`Aggregation` element with no `sourceMultiplicity` and the success case at
elements with missing name/source/target attributes. -/
theorem C8_amended_witness :
    (∀ out, parse_xml_model (.doc [] [⟨none, none, none, none⟩]) ≠ .ok out) ∧
    (∃ aggs, parse_xml_model
        (.doc [⟨none, some "true", none, []⟩] [⟨none, none, some "1", none⟩]) =
      .ok (foldClasses [⟨none, some "true", none, []⟩] initClasses, aggs)) :=
  ⟨C8_amended.2.1 [] [⟨none, none, none, none⟩] ⟨none, none, none, none⟩
      (List.mem_cons_self _ _) rfl,
   C8_amended.2.2 [⟨none, some "true", none, []⟩] [⟨none, none, some "1", none⟩]
      (by
        intro e he
        rcases List.mem_cons.1 he with he | he
        · exact ⟨⟨none, none, "1", "1", none, none⟩, by rw [he]; rfl⟩
        · cases he)⟩



/-- **C2 (counterexample).** An input class named `FOO`, outside the
canonical enumeration, is NOT dropped by the loader: it is appended to the
classes mapping and receives a metadata entry. -/
theorem C2_counterexample :
    (parse_xml_model (.doc [⟨some "FOO", none, none, []⟩] [])).toOption.map
        (fun out => (generate_meta_json out.1 out.2).map (·.className)) =
      some [some "FOO"] ∧
    (some "FOO" : Option String) ∉ class_order.map some := by
  constructor
  · rfl
  · decide

/-- **C2 (amended).** Every canonical class present in the input appears
exactly once in the metadata output, in canonical enumeration order; but
input classes outside the enumeration are not dropped: every input class
(canonical or not) gets an entry, and entry class names are pairwise
distinct. -/
theorem C2_canonical_order (cs : List ClassElem) (as : List AggElem)
    (classes : Classes) (aggs : List Aggregation)
    (hp : parse_xml_model (.doc cs as) = .ok (classes, aggs)) :
    ((generate_meta_json classes aggs).map (·.className)).filter
        (fun n => decide (n ∈ class_order.map some)) =
      (class_order.filter (fun s => cs.any (fun e => e.name == some s))).map some ∧
    (∀ e ∈ cs, e.name ∈ (generate_meta_json classes aggs).map (·.className)) ∧
    ((generate_meta_json classes aggs).map (·.className)).Nodup := by
  have hcl : classes = foldClasses cs initClasses :=
    (parse_doc_ok hp).1
  subst hcl
  have hinit : ∀ s ∈ class_order, (some s : Option String) ∈ initClasses.map Prod.fst := by
    intro s hs
    unfold initClasses
    rw [List.map_map]
    exact List.mem_map.2 ⟨s, hs, rfl⟩
  refine ⟨?_, ?_, ?_⟩
  · rw [generate_meta_className, foldClasses_canonical_filter cs initClasses hinit]
    unfold initClasses
    rw [List.filter_map, List.filter_filter, List.filter_map, List.map_map]
    have hpred : (class_order.filter
        (((fun a => ((fun n => decide (n ∈ class_order.map some)) ∘ Prod.fst) a &&
            (fun p => p.2.isSome || cs.any (fun e' => e'.name == p.1)) a)) ∘
          fun n => ((some n : Option String), (none : Option ClassDef)))) =
        class_order.filter (fun s => cs.any (fun e => e.name == some s)) := by
      apply List.filter_congr
      intro s hs
      have hcanon : (some s : Option String) ∈ class_order.map some :=
        List.mem_map.2 ⟨s, hs, rfl⟩
      simp [hcanon]
      exact fun x _ _ => hs
    rw [hpred]
    apply List.map_congr_left
    intro s _
    rfl
  · intro e he
    have hpop : ∃ c, odGet e.name (foldClasses cs initClasses) = some (some c) :=
      (foldClasses_populated cs initClasses e.name).2 (Or.inl ⟨e, he, rfl⟩)
    obtain ⟨c, hc⟩ := hpop
    rw [generate_meta_className]
    have hmem : (e.name, some c) ∈ foldClasses cs initClasses := odGet_mem hc
    exact List.mem_map.2 ⟨(e.name, some c),
      List.mem_filter.2 ⟨hmem, by simp⟩, rfl⟩
  · rw [generate_meta_className]
    have hkeys : ((foldClasses cs initClasses).map Prod.fst).Nodup := by
      apply foldClasses_keys_nodup
      decide
    exact hkeys.sublist (List.Sublist.map Prod.fst (List.filter_sublist _))



/-- Witness for C2 (amended) at a two-class input (one canonical class,
one class outside the enumeration). -/
theorem C2_canonical_order_witness :
    ((generate_meta_json
        (foldClasses [⟨some "BTS", some "true", none, []⟩, ⟨some "FOO", none, none, []⟩]
          initClasses) []).map (·.className)).filter
        (fun n => decide (n ∈ class_order.map some)) =
      (class_order.filter
        (fun s => [⟨some "BTS", some "true", none, []⟩,
          (⟨some "FOO", none, none, []⟩ : ClassElem)].any (fun e => e.name == some s))).map some ∧
    ((generate_meta_json
        (foldClasses [⟨some "BTS", some "true", none, []⟩, ⟨some "FOO", none, none, []⟩]
          initClasses) []).map (·.className)).Nodup :=
  ⟨(C2_canonical_order [⟨some "BTS", some "true", none, []⟩, ⟨some "FOO", none, none, []⟩]
      [] _ [] rfl).1,
   (C2_canonical_order [⟨some "BTS", some "true", none, []⟩, ⟨some "FOO", none, none, []⟩]
      [] _ [] rfl).2.2⟩

/-- **C6 (counterexample).** Two aggregations sharing the same source AND
target: the metadata `max`/`min` come from the LAST one (`"2"`), not the
first (`"1"`) — the inner dict assignment overwrites. -/
theorem C6_counterexample :
    (generate_meta_json
        [(some "MetricJob", some ⟨some "MetricJob", false, "", []⟩)]
        [⟨some "MetricJob", some "CPLANE", "1", "1", some "1", some "1"⟩,
         ⟨some "MetricJob", some "CPLANE", "2", "2", some "1", some "1"⟩]).map (·.maxMin) =
      [some ("2", "2")] ∧
    (("2", "2") : String × String) ≠ ("1", "1") := by
  constructor
  · rfl
  · decide

/-- **C6 (amended).** A metadata entry carries `max`/`min` iff its class is
the source of at least one aggregation; when present, the target considered
is the one of the FIRST aggregation with this source (declaration order),
and the values come from the LAST aggregation with that same source and
target (later duplicates of a source–target pair overwrite earlier ones). -/
theorem C6_min_max_resolution (classes : Classes) (aggs : List Aggregation)
    (entry : MetaEntry) (hmem : entry ∈ generate_meta_json classes aggs) :
    (entry.maxMin = none ↔ firstAggFor entry.className aggs = none) ∧
    (∀ a0, firstAggFor entry.className aggs = some a0 →
      ∃ aL, lastAggFor entry.className a0.target aggs = some aL ∧
        entry.maxMin = some (aL.source_max, aL.source_min)) := by
  obtain ⟨k, cls, hkc, hentry⟩ := mem_meta_struct hmem
  subst hentry
  rw [metaEntryFor_className, metaEntryFor_maxMin]
  have hchar := sourceInfo_char aggs k
  constructor
  · constructor
    · intro hnone
      cases hfst : firstAggFor k aggs with
      | none => rfl
      | some a0 =>
        obtain ⟨inner, aL, hget, hlast, hhead⟩ := hchar.2 a0 hfst
        rw [hget] at hnone
        simp only [Option.some_bind] at hnone
        rw [hhead] at hnone
        cases hnone
    · intro hfst
      rw [hchar.1 hfst]
      rfl
  · intro a0 hfst
    obtain ⟨inner, aL, hget, hlast, hhead⟩ := hchar.2 a0 hfst
    refine ⟨aL, hlast, ?_⟩
    rw [hget]
    simp only [Option.some_bind]
    rw [hhead]
    rfl

/-- Witness for C6 (amended) at the duplicated source–target input. -/
theorem C6_min_max_resolution_witness :
    ∃ entry, entry ∈ generate_meta_json
        [(some "MetricJob", some ⟨some "MetricJob", false, "", []⟩)]
        [⟨some "MetricJob", some "CPLANE", "1", "1", some "1", some "1"⟩,
         ⟨some "MetricJob", some "CPLANE", "2", "2", some "1", some "1"⟩] ∧
      entry.maxMin = some ("2", "2") := by
  refine ⟨metaEntryFor
      [⟨some "MetricJob", some "CPLANE", "1", "1", some "1", some "1"⟩,
       ⟨some "MetricJob", some "CPLANE", "2", "2", some "1", some "1"⟩]
      (buildSourceInfo
        [⟨some "MetricJob", some "CPLANE", "1", "1", some "1", some "1"⟩,
         ⟨some "MetricJob", some "CPLANE", "2", "2", some "1", some "1"⟩])
      (some "MetricJob") ⟨some "MetricJob", false, "", []⟩, ?_, ?_⟩
  · exact List.mem_cons_self _ _
  · obtain ⟨aL, hlast, hval⟩ :=
      (C6_min_max_resolution
        [(some "MetricJob", some ⟨some "MetricJob", false, "", []⟩)]
        [⟨some "MetricJob", some "CPLANE", "1", "1", some "1", some "1"⟩,
         ⟨some "MetricJob", some "CPLANE", "2", "2", some "1", some "1"⟩]
        _ (List.mem_cons_self _ _)).2
        ⟨some "MetricJob", some "CPLANE", "1", "1", some "1", some "1"⟩ rfl
    rw [hval]
    have hlast' : lastAggFor (some "MetricJob") (some "CPLANE")
        [⟨some "MetricJob", some "CPLANE", "1", "1", some "1", some "1"⟩,
         ⟨some "MetricJob", some "CPLANE", "2", "2", some "1", some "1"⟩] = some aL := hlast
    have h2 : lastAggFor (some "MetricJob") (some "CPLANE")
        [⟨some "MetricJob", some "CPLANE", "1", "1", some "1", some "1"⟩,
         ⟨some "MetricJob", some "CPLANE", "2", "2", some "1", some "1"⟩] =
        some ⟨some "MetricJob", some "CPLANE", "2", "2", some "1", some "1"⟩ := by rfl
    rw [h2] at hlast'
    cases hlast'
    rfl



/-- **C7 (counterexample).** An aggregation whose source `FOO` is neither
canonical nor present in the input makes the config serializer fail with
`KeyError` when walking from the root — the class-mapping lookup does not
tolerate absence. -/
theorem C7_counterexample :
    generate_config_xml
      [(some "BTS", some ⟨some "BTS", true, "", []⟩),
       (some "MGMT", some ⟨some "MGMT", false, "", []⟩)]
      (some "BTS")
      (build_class_hierarchy
        [⟨some "MGMT", some "BTS", "1", "1", some "1", some "1"⟩,
         ⟨some "FOO", some "MGMT", "0", "1", some "1", some "1"⟩]).2
      10 = .error .keyError := by rfl

/-- **C7 (amended).** The containment lookup tolerates absence (a class
that is no aggregation target becomes a leaf element), but the
class-mapping lookup does not: a class name absent from the classes
mapping raises `KeyError`, and a canonical never-populated slot (value
null) raises `TypeError`. -/
theorem C7_absence_handling :
    (∀ (classes : Classes) (cn : Option String) (cls : ClassDef) (fuel : Nat)
        (c : Containment), odGet cn classes = some (some cls) → odGet cn c = none →
        buildForest classes (fuel + 1) [cn] c = .ok ([⟨cn, cls.attributes, []⟩], c)) ∧
    (∀ (classes : Classes) (cn : Option String) (rest : List (Option String))
        (c : Containment) (fuel : Nat), odGet cn classes = none →
        buildForest classes (fuel + 1) (cn :: rest) c = .error .keyError) ∧
    (∀ (classes : Classes) (cn : Option String) (rest : List (Option String))
        (c : Containment) (fuel : Nat), odGet cn classes = some none →
        buildForest classes (fuel + 1) (cn :: rest) c = .error .typeError) := by
  refine ⟨?_, ?_, ?_⟩
  · intro classes cn cls fuel c hcls hcont
    rw [buildForest_succ]
    simp only [hcls, hcont, buildForest_nil]
  · intro classes cn rest c fuel hcls
    rw [buildForest_succ]
    simp only [hcls]
  · intro classes cn rest c fuel hcls
    rw [buildForest_succ]
    simp only [hcls]

/-- Witness for C7 (amended): a populated class that is no aggregation
target is serialized as a leaf; an absent class name raises `KeyError`; an
unpopulated canonical slot raises `TypeError`. -/
theorem C7_absence_handling_witness :
    buildForest [(some "BTS", some ⟨some "BTS", true, "", []⟩)] 3 [some "BTS"] [] =
      .ok ([⟨some "BTS", [], []⟩], []) ∧
    buildForest [(some "BTS", some ⟨some "BTS", true, "", []⟩)] 3 [some "FOO"] [] =
      .error .keyError ∧
    buildForest [(some "MGMT", none)] 3 [some "MGMT"] [] = .error .typeError :=
  ⟨C7_absence_handling.1 [(some "BTS", some ⟨some "BTS", true, "", []⟩)]
      (some "BTS") ⟨some "BTS", true, "", []⟩ 2 [] rfl rfl,
   C7_absence_handling.2.1 [(some "BTS", some ⟨some "BTS", true, "", []⟩)]
      (some "FOO") [] [] 2 rfl,
   C7_absence_handling.2.2 [(some "MGMT", none)] (some "MGMT") [] [] 2 rfl⟩

/-- **C9 (counterexample).** Running `generate_config_xml` changes the
containment index: the `BTS` child list, declared in order
`HWE, MGMT, COMM`, is sorted in place to `MGMT, HWE, COMM`. -/
theorem C9_counterexample :
    ((generate_config_xml
        [(some "BTS", some ⟨some "BTS", true, "", []⟩),
         (some "MGMT", some ⟨some "MGMT", false, "", []⟩),
         (some "HWE", some ⟨some "HWE", false, "", []⟩),
         (some "COMM", some ⟨some "COMM", false, "", []⟩)]
        (some "BTS")
        (build_class_hierarchy
          [⟨some "HWE", some "BTS", "1", "1", some "1", some "1"⟩,
           ⟨some "MGMT", some "BTS", "1", "1", some "1", some "1"⟩,
           ⟨some "COMM", some "BTS", "1", "1", some "1", some "1"⟩]).2
        5).toOption.map Prod.snd) =
      some [(some "BTS",
        [⟨some "MGMT", "1", "1"⟩, ⟨some "HWE", "1", "1"⟩, ⟨some "COMM", "1", "1"⟩])] ∧
    some [((some "BTS" : Option String),
        [(⟨some "MGMT", "1", "1"⟩ : ContainmentEntry), ⟨some "HWE", "1", "1"⟩,
         ⟨some "COMM", "1", "1"⟩])] ≠
      some ((build_class_hierarchy
          [⟨some "HWE", some "BTS", "1", "1", some "1", some "1"⟩,
           ⟨some "MGMT", some "BTS", "1", "1", some "1", some "1"⟩,
           ⟨some "COMM", some "BTS", "1", "1", some "1", some "1"⟩]).2) := by
  constructor
  · rfl
  · decide

/-- **C9 (amended).** `generate_meta_json` mutates nothing (it is a pure
projection of its inputs), and `generate_config_xml` leaves the classes
mapping and the aggregation list untouched; but it sorts the containment
index's `MGMT` and `BTS` child lists in place. Every containment list of
the final state is a permutation of the original, lists of other classes
are unchanged, and the `MGMT`/`BTS` lists are either unchanged or replaced
by their sorted versions. -/
theorem C9_mutation (classes : Classes) (aggs : List Aggregation) (fuel : Nat)
    (nodes : List ConfigNode) (c' : Containment)
    (hok : generate_config_xml classes (some "BTS") (build_class_hierarchy aggs).2 fuel
      = .ok (nodes, c')) :
    (∀ k, k ≠ some "MGMT" → k ≠ some "BTS" →
      odGet k c' = odGet k (build_class_hierarchy aggs).2) ∧
    (odGet (some "MGMT") c' = odGet (some "MGMT") (build_class_hierarchy aggs).2 ∨
      ∃ l, odGet (some "MGMT") (build_class_hierarchy aggs).2 = some l ∧
        odGet (some "MGMT") c' = some (mgmtSortL l)) ∧
    (odGet (some "BTS") c' = odGet (some "BTS") (build_class_hierarchy aggs).2 ∨
      ∃ l, odGet (some "BTS") (build_class_hierarchy aggs).2 = some l ∧
        odGet (some "BTS") c' = some (btsSortL l)) ∧
    (∀ k l l', odGet k (build_class_hierarchy aggs).2 = some l → odGet k c' = some l' →
      List.Perm l' l) := by
  obtain ⟨⟨hother, hmgmt, hbts⟩, -, -⟩ :=
    buildForest_spec classes (build_class_hierarchy aggs).2 fuel [some "BTS"]
      (build_class_hierarchy aggs).2 nodes c' (Inv.refl _) hok
  refine ⟨hother, hmgmt, ?_, ?_⟩
  · rcases hbts with h | ⟨l, hl, hc, hg⟩
    · exact Or.inl h
    · exact Or.inr ⟨l, hl, hc⟩
  · intro k l l' hl hl'
    by_cases hM : k = some "MGMT"
    · subst hM
      rcases hmgmt with h | ⟨l₂, hl₂, hc₂⟩
      · rw [hl] at h
        rw [h] at hl'
        cases hl'
        exact List.Perm.refl l
      · rw [hl₂] at hl
        cases hl
        rw [hc₂] at hl'
        cases hl'
        exact mgmtSortL_perm l
    · by_cases hB : k = some "BTS"
      · subst hB
        rcases hbts with h | ⟨l₂, hl₂, hc₂, hg⟩
        · rw [hl] at h
          rw [h] at hl'
          cases hl'
          exact List.Perm.refl l
        · rw [hl₂] at hl
          cases hl
          rw [hc₂] at hl'
          cases hl'
          exact btsSortL_perm l
      · rw [hother k hM hB, hl] at hl'
        cases hl'
        exact List.Perm.refl l

/-- Witness for C9 (amended) at the three-child input declared out of
priority order: the containment entry of a class other than `MGMT`/`BTS`
is unchanged by the run. -/
theorem C9_mutation_witness :
    odGet (some "CPLANE")
      [((some "BTS" : Option String),
        [(⟨some "MGMT", "1", "1"⟩ : ContainmentEntry), ⟨some "HWE", "1", "1"⟩,
         ⟨some "COMM", "1", "1"⟩])] =
    odGet (some "CPLANE") (build_class_hierarchy
      [⟨some "HWE", some "BTS", "1", "1", some "1", some "1"⟩,
       ⟨some "MGMT", some "BTS", "1", "1", some "1", some "1"⟩,
       ⟨some "COMM", some "BTS", "1", "1", some "1", some "1"⟩]).2 :=
  (C9_mutation
    [(some "BTS", some ⟨some "BTS", true, "", []⟩),
     (some "MGMT", some ⟨some "MGMT", false, "", []⟩),
     (some "HWE", some ⟨some "HWE", false, "", []⟩),
     (some "COMM", some ⟨some "COMM", false, "", []⟩)]
    [⟨some "HWE", some "BTS", "1", "1", some "1", some "1"⟩,
     ⟨some "MGMT", some "BTS", "1", "1", some "1", some "1"⟩,
     ⟨some "COMM", some "BTS", "1", "1", some "1", some "1"⟩]
    5
    [⟨some "BTS", [], [⟨some "MGMT", [], []⟩, ⟨some "HWE", [], []⟩, ⟨some "COMM", [], []⟩]⟩]
    [(some "BTS",
      [⟨some "MGMT", "1", "1"⟩, ⟨some "HWE", "1", "1"⟩, ⟨some "COMM", "1", "1"⟩])]
    rfl).1 (some "CPLANE") (by decide) (by decide)



theorem btsSortL_map_of_perm (l : List ContainmentEntry)
    (hperm : List.Perm (l.map (·.cls)) [some "MGMT", some "HWE", some "COMM"]) :
    (btsSortL l).map (·.cls) = [some "MGMT", some "HWE", some "COMM"] := by
  have hguard : ∀ e ∈ l, btsIdx e.cls < 3 := by
    intro e he
    have hmem : e.cls ∈ [some "MGMT", some "HWE", some "COMM"] :=
      hperm.mem_iff.1 (List.mem_map_of_mem _ he)
    rcases List.mem_cons.1 hmem with h | hmem
    · rw [btsIdx, if_pos h]
      omega
    rcases List.mem_cons.1 hmem with h | hmem
    · rw [btsIdx, if_neg (by rw [h]; decide), if_pos h]
      omega
    rcases List.mem_cons.1 hmem with h | hmem
    · rw [btsIdx, if_neg (by rw [h]; decide), if_neg (by rw [h]; decide), if_pos h]
      omega
    · cases hmem
  rw [btsSortL_eq l hguard, List.map_append, List.map_append]
  have step1 : ∀ i : Nat,
      (l.filter (fun e => btsIdx e.cls == i)).map (·.cls) =
        (l.map (·.cls)).filter (fun c => btsIdx c == i) := by
    intro i
    rw [List.filter_map]
    rfl
  have step2 : ∀ (i : Nat) (nm : Option String),
      ([some "MGMT", some "HWE", some "COMM"].filter (fun c => btsIdx c == i)) = [nm] →
      (l.map (·.cls)).filter (fun c => btsIdx c == i) = [nm] := by
    intro i nm hi
    exact List.perm_singleton.1 (by
      have := hperm.filter (fun c => btsIdx c == i)
      rw [hi] at this
      exact this)
  rw [step1 0, step1 1, step1 2, step2 0 (some "MGMT") (by decide),
    step2 1 (some "HWE") (by decide), step2 2 (some "COMM") (by decide)]
  rfl

/-- **C3.** Under the precondition that the `BTS` containment children are
exactly `MGMT`, `HWE`, `COMM` (in any declaration order), every `BTS`
element of the produced config tree lists its children in the fixed
priority order `MGMT`, `HWE`, `COMM`. -/
theorem C3_bts_children_order (classes : Classes) (c₀ : Containment) (fuel : Nat)
    (nodes : List ConfigNode) (c' : Containment) (l : List ContainmentEntry)
    (hok : generate_config_xml classes (some "BTS") c₀ fuel = .ok (nodes, c'))
    (hl : odGet (some "BTS") c₀ = some l)
    (hperm : List.Perm (l.map (·.cls)) [some "MGMT", some "HWE", some "COMM"]) :
    ∀ n ∈ nodesOfList nodes, n.name = some "BTS" →
      n.children.map (·.name) = [some "MGMT", some "HWE", some "COMM"] := by
  obtain ⟨-, -, hspec⟩ :=
    buildForest_spec classes c₀ fuel [some "BTS"] c₀ nodes c' (Inv.refl _) hok
  intro n hn hname
  obtain ⟨-, h2⟩ := hspec n hn
  obtain ⟨hch, -⟩ := (h2 l (by rw [hname]; exact hl)).2.1 hname
  rw [hch, btsSortL_map_of_perm l hperm]

/-- Witness for C3: children declared `HWE, MGMT, COMM` come out as
`MGMT, HWE, COMM`. -/
theorem C3_bts_children_order_witness :
    (⟨some "BTS", [],
      [⟨some "MGMT", [], []⟩, ⟨some "HWE", [], []⟩, ⟨some "COMM", [], []⟩]⟩ :
        ConfigNode).children.map (·.name) =
      [some "MGMT", some "HWE", some "COMM"] :=
  C3_bts_children_order
    [(some "BTS", some ⟨some "BTS", true, "", []⟩),
     (some "MGMT", some ⟨some "MGMT", false, "", []⟩),
     (some "HWE", some ⟨some "HWE", false, "", []⟩),
     (some "COMM", some ⟨some "COMM", false, "", []⟩)]
    (build_class_hierarchy
      [⟨some "HWE", some "BTS", "1", "1", some "1", some "1"⟩,
       ⟨some "MGMT", some "BTS", "1", "1", some "1", some "1"⟩,
       ⟨some "COMM", some "BTS", "1", "1", some "1", some "1"⟩]).2
    5
    [⟨some "BTS", [],
      [⟨some "MGMT", [], []⟩, ⟨some "HWE", [], []⟩, ⟨some "COMM", [], []⟩]⟩]
    [(some "BTS",
      [⟨some "MGMT", "1", "1"⟩, ⟨some "HWE", "1", "1"⟩, ⟨some "COMM", "1", "1"⟩])]
    [⟨some "HWE", "1", "1"⟩, ⟨some "MGMT", "1", "1"⟩, ⟨some "COMM", "1", "1"⟩]
    rfl rfl (by decide)
    ⟨some "BTS", [],
      [⟨some "MGMT", [], []⟩, ⟨some "HWE", [], []⟩, ⟨some "COMM", [], []⟩]⟩
    (by
      rw [nodesOfList_cons, nodesOf_mk]
      exact List.mem_append_left _ (List.mem_cons_self _ _))
    rfl



theorem jobParamKey_le_one (p : Option String × Option String) : jobParamKey p ≤ 1 := by
  unfold jobParamKey
  split <;> omega

theorem jobParamSort_eq (contained : List (Option String × Option String)) :
    pySort jobParamKey contained =
      contained.filter (fun p => p.1 == some "MetricJob") ++
        contained.filter (fun p => !(p.1 == some "MetricJob")) := by
  rw [pySort_eq_two jobParamKey contained (fun x _ => jobParamKey_le_one x)]
  congr 1
  · apply List.filter_congr
    intro p _
    unfold jobParamKey
    by_cases h : p.1 = some "MetricJob" <;> simp [h]
  · apply List.filter_congr
    intro p _
    unfold jobParamKey
    by_cases h : p.1 = some "MetricJob" <;> simp [h]

theorem mgmtSortL_eq_named (l : List ContainmentEntry) :
    mgmtSortL l = l.filter (fun e => e.cls == some "MetricJob") ++
      l.filter (fun e => !(e.cls == some "MetricJob")) := by
  rw [mgmtSortL_eq l]
  congr 1
  · apply List.filter_congr
    intro e _
    unfold jobChildKey
    by_cases h : e.cls = some "MetricJob" <;> simp [h]
  · apply List.filter_congr
    intro e _
    unfold jobChildKey
    by_cases h : e.cls = some "MetricJob" <;> simp [h]

/-- **C4.** For the `MGMT` class, the synthetic containment parameters of
its metadata entry and its children in the config tree place `MetricJob`
first (all `MetricJob` edges, in declaration order), while all other
children keep their relative aggregation-declaration order, regardless of
`MetricJob`'s position in the input aggregation list. -/
theorem C4_metricjob_first :
    (∀ (classes : Classes) (aggs : List Aggregation) (entry : MetaEntry),
      entry ∈ generate_meta_json classes aggs → entry.className = some "MGMT" →
      ∃ cls : ClassDef,
        entry.parameters = cls.attributes ++
          (((aggs.filter (fun a => a.target = some "MGMT")).map
              (fun a => (a.source, some "class"))).filter
                (fun p => p.1 == some "MetricJob") ++
           ((aggs.filter (fun a => a.target = some "MGMT")).map
              (fun a => (a.source, some "class"))).filter
                (fun p => !(p.1 == some "MetricJob")))) ∧
    (∀ (classes : Classes) (root : Option String) (c₀ : Containment) (fuel : Nat)
        (nodes : List ConfigNode) (c' : Containment) (n : ConfigNode)
        (l : List ContainmentEntry),
      generate_config_xml classes root c₀ fuel = .ok (nodes, c') →
      n ∈ nodesOfList nodes → n.name = some "MGMT" →
      odGet (some "MGMT") c₀ = some l →
      n.children.map (·.name) =
        (l.filter (fun e => e.cls == some "MetricJob") ++
         l.filter (fun e => !(e.cls == some "MetricJob"))).map (·.cls)) := by
  constructor
  · intro classes aggs entry hmem hname
    obtain ⟨k, cls, hkc, hentry⟩ := mem_meta_struct hmem
    subst hentry
    rw [metaEntryFor_className] at hname
    subst hname
    refine ⟨cls, ?_⟩
    rw [metaEntryFor_parameters, if_pos rfl, jobParamSort_eq]
  · intro classes root c₀ fuel nodes c' n l hok hn hname hl
    obtain ⟨-, -, hspec⟩ :=
      buildForest_spec classes c₀ fuel [root] c₀ nodes c' (Inv.refl _) hok
    obtain ⟨-, h2⟩ := hspec n hn
    have hch := (h2 l (by rw [hname]; exact hl)).1 hname
    rw [hch, mgmtSortL_eq_named]

/-- Witness for C4: `MetricJob` declared after `CPLANE` under `MGMT`
nevertheless comes first, in the metadata parameters and among the `MGMT`
node's children. -/
theorem C4_metricjob_first_witness :
    (∃ cls : ClassDef,
      (metaEntryFor
        [⟨some "MGMT", some "BTS", "1", "1", some "1", some "1"⟩,
         ⟨some "CPLANE", some "MGMT", "1", "1", some "1", some "1"⟩,
         ⟨some "MetricJob", some "MGMT", "1", "1", some "1", some "1"⟩]
        (buildSourceInfo
          [⟨some "MGMT", some "BTS", "1", "1", some "1", some "1"⟩,
           ⟨some "CPLANE", some "MGMT", "1", "1", some "1", some "1"⟩,
           ⟨some "MetricJob", some "MGMT", "1", "1", some "1", some "1"⟩])
        (some "MGMT") ⟨some "MGMT", false, "", []⟩).parameters =
        cls.attributes ++
          ((([⟨some "MGMT", some "BTS", "1", "1", some "1", some "1"⟩,
              ⟨some "CPLANE", some "MGMT", "1", "1", some "1", some "1"⟩,
              (⟨some "MetricJob", some "MGMT", "1", "1", some "1", some "1"⟩ :
                Aggregation)].filter (fun a => a.target = some "MGMT")).map
              (fun a => (a.source, some "class"))).filter
                (fun p => p.1 == some "MetricJob") ++
           (([⟨some "MGMT", some "BTS", "1", "1", some "1", some "1"⟩,
              ⟨some "CPLANE", some "MGMT", "1", "1", some "1", some "1"⟩,
              (⟨some "MetricJob", some "MGMT", "1", "1", some "1", some "1"⟩ :
                Aggregation)].filter (fun a => a.target = some "MGMT")).map
              (fun a => (a.source, some "class"))).filter
                (fun p => !(p.1 == some "MetricJob")))) ∧
    (⟨some "MGMT", [],
        [⟨some "MetricJob", [], []⟩, ⟨some "CPLANE", [], []⟩]⟩ :
          ConfigNode).children.map (·.name) =
      (([⟨some "CPLANE", "1", "1"⟩,
         (⟨some "MetricJob", "1", "1"⟩ : ContainmentEntry)].filter
            (fun e => e.cls == some "MetricJob")) ++
       ([⟨some "CPLANE", "1", "1"⟩,
         (⟨some "MetricJob", "1", "1"⟩ : ContainmentEntry)].filter
            (fun e => !(e.cls == some "MetricJob")))).map (·.cls) := by
  constructor
  · exact C4_metricjob_first.1
      [(some "MGMT", some ⟨some "MGMT", false, "", []⟩)]
      [⟨some "MGMT", some "BTS", "1", "1", some "1", some "1"⟩,
       ⟨some "CPLANE", some "MGMT", "1", "1", some "1", some "1"⟩,
       ⟨some "MetricJob", some "MGMT", "1", "1", some "1", some "1"⟩]
      _ (List.mem_cons_self _ _) rfl
  · exact C4_metricjob_first.2
      [(some "BTS", some ⟨some "BTS", true, "", []⟩),
       (some "MGMT", some ⟨some "MGMT", false, "", []⟩),
       (some "CPLANE", some ⟨some "CPLANE", false, "", []⟩),
       (some "MetricJob", some ⟨some "MetricJob", false, "", []⟩)]
      (some "BTS")
      (build_class_hierarchy
        [⟨some "MGMT", some "BTS", "1", "1", some "1", some "1"⟩,
         ⟨some "CPLANE", some "MGMT", "1", "1", some "1", some "1"⟩,
         ⟨some "MetricJob", some "MGMT", "1", "1", some "1", some "1"⟩]).2
      6
      [⟨some "BTS", [],
        [⟨some "MGMT", [],
          [⟨some "MetricJob", [], []⟩, ⟨some "CPLANE", [], []⟩]⟩]⟩]
      [(some "BTS", [⟨some "MGMT", "1", "1"⟩]),
       (some "MGMT",
        [⟨some "MetricJob", "1", "1"⟩, ⟨some "CPLANE", "1", "1"⟩])]
      ⟨some "MGMT", [],
        [⟨some "MetricJob", [], []⟩, ⟨some "CPLANE", [], []⟩]⟩
      [⟨some "CPLANE", "1", "1"⟩, ⟨some "MetricJob", "1", "1"⟩]
      rfl
      (by
        rw [nodesOfList_cons, nodesOf_mk]
        apply List.mem_append_left
        apply List.mem_cons_of_mem
        rw [nodesOfList_cons, nodesOf_mk]
        exact List.mem_append_left _ (List.mem_cons_self _ _))
      rfl rfl



/-- `toContainmentEntry` is the record appended by `build_class_hierarchy`
for one aggregation. -/
theorem containment_char (aggs : List Aggregation) (t : Option String) :
    odGet t (build_class_hierarchy aggs).2 =
      if (aggs.filter (fun a => a.target == t)).isEmpty then none
      else some ((aggs.filter (fun a => a.target == t)).map
        (fun a => (⟨a.source, a.source_max, a.source_min⟩ : ContainmentEntry))) := by
  induction aggs using List.reverseRecOn with
  | nil => rfl
  | append_singleton l a ih =>
    have happ : (build_class_hierarchy (l ++ [a])).2 =
        odSet a.target
          (((odGet a.target (build_class_hierarchy l).2).getD []) ++
            [⟨a.source, a.source_max, a.source_min⟩])
          (build_class_hierarchy l).2 := by
      unfold build_class_hierarchy
      rw [List.foldl_append]
      rfl
    rw [happ]
    by_cases ht : a.target = t
    · subst ht
      rw [odGet_odSet_self, ih, List.filter_append,
        show [a].filter (fun x => x.target == a.target) = [a] from by simp]
      by_cases he : (l.filter (fun x => x.target == a.target)).isEmpty
      · rw [List.isEmpty_iff.1 he]
        simp
      · rw [if_neg (by simpa using he)]
        rw [if_neg (show ¬((l.filter (fun x => x.target == a.target) ++ [a]).isEmpty = true)
          from by simp)]
        simp only [Option.getD_some, List.map_append]
        rfl
    · rw [odGet_odSet_ne _ _ _ _ (fun hh => ht hh.symm), ih, List.filter_append,
        show [a].filter (fun x => x.target == t) = [] from by simp [ht],
        List.append_nil]

/-- **C1.** Round trip for each aggregation edge `source → target`: the
metadata entry of the target class (when the target class is populated)
carries the synthetic parameter `(source, "class")`, and every element of
the config tree named after the target directly contains an element named
after the source. -/
theorem C1_roundtrip :
    (∀ (classes : Classes) (aggs : List Aggregation) (a : Aggregation) (cls : ClassDef),
      a ∈ aggs → odGet a.target classes = some (some cls) →
      ∃ entry ∈ generate_meta_json classes aggs, entry.className = a.target ∧
        (a.source, some "class") ∈ entry.parameters) ∧
    (∀ (classes : Classes) (aggs : List Aggregation) (fuel : Nat)
        (nodes : List ConfigNode) (c' : Containment) (n : ConfigNode) (a : Aggregation),
      generate_config_xml classes (some "BTS") (build_class_hierarchy aggs).2 fuel =
        .ok (nodes, c') →
      n ∈ nodesOfList nodes → a ∈ aggs → n.name = a.target →
      ∃ ch ∈ n.children, ch.name = a.source) := by
  constructor
  · intro classes aggs a cls ha hcls
    refine ⟨metaEntryFor aggs (buildSourceInfo aggs) a.target cls, ?_, rfl, ?_⟩
    · unfold generate_meta_json
      exact List.mem_filterMap.2 ⟨(a.target, some cls), odGet_mem hcls, by simp⟩
    · rw [metaEntryFor_parameters]
      apply List.mem_append_right
      have hc : (a.source, some "class") ∈
          (aggs.filter (fun x => x.target = a.target)).map
            (fun x => (x.source, some "class")) :=
        List.mem_map_of_mem _ (List.mem_filter.2 ⟨ha, by simp⟩)
      split
      · exact (pySort_perm jobParamKey _).mem_iff.2 hc
      · exact hc
  · intro classes aggs fuel nodes c' n a hok hn ha hname
    obtain ⟨-, -, hspec⟩ :=
      buildForest_spec classes (build_class_hierarchy aggs).2 fuel [some "BTS"]
        (build_class_hierarchy aggs).2 nodes c' (Inv.refl _) hok
    obtain ⟨-, h2⟩ := hspec n hn
    have hne : ((aggs.filter (fun x => x.target == a.target)).isEmpty) = false := by
      rw [List.isEmpty_eq_false_iff_exists_mem]
      exact ⟨a, List.mem_filter.2 ⟨ha, by simp⟩⟩
    have hL : odGet a.target (build_class_hierarchy aggs).2 =
        some ((aggs.filter (fun x => x.target == a.target)).map
          (fun x => (⟨x.source, x.source_max, x.source_min⟩ : ContainmentEntry))) := by
      rw [containment_char, hne]
      rfl
    have hmemL : (⟨a.source, a.source_max, a.source_min⟩ : ContainmentEntry) ∈
        (aggs.filter (fun x => x.target == a.target)).map
          (fun x => (⟨x.source, x.source_max, x.source_min⟩ : ContainmentEntry)) :=
      List.mem_map_of_mem _ (List.mem_filter.2 ⟨ha, by simp⟩)
    have hsrc : a.source ∈
        ((aggs.filter (fun x => x.target == a.target)).map
          (fun x => (⟨x.source, x.source_max, x.source_min⟩ : ContainmentEntry))).map
            (·.cls) := by
      refine List.mem_map.2 ⟨⟨a.source, a.source_max, a.source_min⟩, hmemL, rfl⟩
    have hLspec := h2 _ (by rw [hname]; exact hL)
    have hchildren : a.source ∈ n.children.map (·.name) := by
      by_cases hM : n.name = some "MGMT"
      · rw [hLspec.1 hM]
        exact ((mgmtSortL_perm _).map (·.cls)).mem_iff.2 hsrc
      · by_cases hB : n.name = some "BTS"
        · rw [(hLspec.2.1 hB).1]
          exact ((btsSortL_perm _).map (·.cls)).mem_iff.2 hsrc
        · rw [hLspec.2.2 hM hB]
          exact hsrc
    obtain ⟨ch, hch, hcheq⟩ := List.mem_map.1 hchildren
    exact ⟨ch, hch, hcheq⟩

/-- Witness for C1 at the spec's running example (`MGMT→BTS`,
`MetricJob→MGMT`). -/
theorem C1_roundtrip_witness :
    (∃ entry ∈ generate_meta_json
        [(some "MGMT", some ⟨some "MGMT", false, "", []⟩),
         (some "BTS", some ⟨some "BTS", true, "", []⟩)]
        [⟨some "MGMT", some "BTS", "1", "1", some "1", some "1"⟩,
         ⟨some "MetricJob", some "MGMT", "1", "1", some "1", some "1"⟩],
      entry.className = some "BTS" ∧
        ((some "MGMT" : Option String), (some "class" : Option String)) ∈
          entry.parameters) ∧
    (∃ ch ∈ (⟨some "BTS", [],
        [⟨some "MGMT", [], [⟨some "MetricJob", [], []⟩]⟩]⟩ : ConfigNode).children,
      ch.name = some "MGMT") := by
  constructor
  · exact C1_roundtrip.1
      [(some "MGMT", some ⟨some "MGMT", false, "", []⟩),
       (some "BTS", some ⟨some "BTS", true, "", []⟩)]
      [⟨some "MGMT", some "BTS", "1", "1", some "1", some "1"⟩,
       ⟨some "MetricJob", some "MGMT", "1", "1", some "1", some "1"⟩]
      ⟨some "MGMT", some "BTS", "1", "1", some "1", some "1"⟩
      ⟨some "BTS", true, "", []⟩
      (List.mem_cons_self _ _) rfl
  · exact C1_roundtrip.2
      [(some "MGMT", some ⟨some "MGMT", false, "", []⟩),
       (some "BTS", some ⟨some "BTS", true, "", []⟩),
       (some "MetricJob", some ⟨some "MetricJob", false, "", []⟩)]
      [⟨some "MGMT", some "BTS", "1", "1", some "1", some "1"⟩,
       ⟨some "MetricJob", some "MGMT", "1", "1", some "1", some "1"⟩]
      6
      [⟨some "BTS", [], [⟨some "MGMT", [], [⟨some "MetricJob", [], []⟩]⟩]⟩]
      [(some "BTS", [⟨some "MGMT", "1", "1"⟩]),
       (some "MGMT", [⟨some "MetricJob", "1", "1"⟩])]
      ⟨some "BTS", [], [⟨some "MGMT", [], [⟨some "MetricJob", [], []⟩]⟩]⟩
      ⟨some "MGMT", some "BTS", "1", "1", some "1", some "1"⟩
      rfl
      (by
        rw [nodesOfList_cons, nodesOf_mk]
        exact List.mem_append_left _ (List.mem_cons_self _ _))
      (List.mem_cons_self _ _) rfl


end Yadro
